import Mathlib

/- Shallow embedding of catalyst-cooperative/xbrl-extract:
   src/src/xbrl_extract/instance.py and src/src/xbrl_extract/xbrl.py.

   Python dicts are modelled as association lists over String keys with
   insert-or-replace semantics that preserve insertion order, which is
   exactly the observable behavior of CPython dicts.  Fallible Python code
   (exceptions: KeyError, AttributeError, pydantic validation errors,
   IndexError, NameError) is modelled with Except.  Dates are kept as their
   raw strings; pydantic's date parsing is not modelled, which only widens
   the set of documents that parse successfully and is irrelevant to the
   claims under check. -/

namespace Xbrl

abbrev Dict (α : Type) := List (String × α)

def dictHas {α : Type} (m : Dict α) (k : String) : Bool :=
  m.any (fun p => p.1 == k)

def dictGet {α : Type} (m : Dict α) (k : String) : Option α :=
  match m.find? (fun p => p.1 == k) with
  | some p => some p.2
  | none => none

/-- Python dict item assignment: replace the (unique) entry with this key
    in place, or append a new entry at the end.  Written recursively; on
    key-unique association lists — the only ones a Python dict can be —
    this is exactly the replace-or-append behavior of CPython dicts. -/
def dictSet {α : Type} : Dict α → String → α → Dict α
  | [], k, v => [(k, v)]
  | p :: rest, k, v => if p.1 == k then (k, v) :: rest else p :: dictSet rest k v

def dictKeys {α : Type} (m : Dict α) : List String := m.map Prod.fst

/-- Python dict.update: fold the right dict into the left with dictSet. -/
def dictUpdate {α : Type} (m new : Dict α) : Dict α :=
  new.foldl (fun a p => dictSet a p.1 p.2) m

/- String helpers.  Core String functions such as startsWith or replace are
   compiled by well-founded recursion and do not reduce inside the kernel,
   so structurally recursive equivalents over the character list are used. -/

def charsStart : List Char → List Char → Bool
  | _, [] => true
  | [], _ :: _ => false
  | c :: cs, d :: ds => c == d && charsStart cs ds

/-- s.startswith(pat) -/
def strStarts (s pat : String) : Bool := charsStart s.data pat.data

/-- s.endswith(pat) -/
def strEnds (s pat : String) : Bool := charsStart s.data.reverse pat.data.reverse

def upToColon : List Char → List Char
  | [] => []
  | c :: cs => if c == ':' then [] else c :: upToColon cs

def pastColon : List Char → Option (List Char)
  | [] => none
  | c :: cs => if c == ':' then some cs else pastColon cs

/-- The Axis name validator: name.split(":")[1] if ":" in name else name. -/
def stripNsPart (s : String) : String :=
  match pastColon s.data with
  | some rest => String.mk (upToColon rest)
  | none => s

def removeAllAux : Nat → List Char → List Char → List Char
  | 0, s, _ => s
  | _ + 1, [], _ => []
  | n + 1, c :: cs, pat =>
    if !pat.isEmpty && charsStart (c :: cs) pat then
      removeAllAux n (List.drop pat.length (c :: cs)) pat
    else c :: removeAllAux n cs pat

/-- s.replace(pat, "") — every occurrence of pat is deleted.  The fuel
    s.length bounds the number of steps, each of which consumes at least
    one character, so the fuel never runs out. -/
def strRemoveAll (s pat : String) : String :=
  String.mk (removeAllAux s.data.length s.data pat.data)

deriving instance DecidableEq for Except

/- Error model for the Python exceptions this code can raise. -/
inductive PErr where
  | keyError (k : String)
  | attributeError
  | validationError
  | indexError
  | nameError
  | valueError
deriving DecidableEq

/- instance.py data model (the pydantic classes). -/

inductive DimensionType where
  | EXPLICIT
  | TYPED
deriving DecidableEq

structure Axis where
  name : String
  value : String
  dimension_type : DimensionType
deriving DecidableEq

structure Period where
  instant : Bool
  start_date : Option String
  end_date : String
deriving DecidableEq

structure Entity where
  identifier : String
  dimensions : List Axis
deriving DecidableEq

structure Context where
  c_id : String
  entity : Entity
  period : Period
deriving DecidableEq

structure Fact where
  name : String
  c_id : String
  value : Option String
deriving DecidableEq

/- XML surface: just the parts of an lxml element tree that instance.py
   reads.  Element text is Option String; lxml reports None for an element
   with no text content (an empty element never yields ""). -/

inductive XDim where
  | explicitMember (dimension : String) (text : Option String)
  | typedMember (dimension : String) (childText : Option String)
  | otherDim
deriving DecidableEq

structure XEntity where
  identifier : Option String
  segment : Option (List XDim)
deriving DecidableEq

inductive XPeriod where
  | instantP (text : Option String)
  | durationP (startText : Option String) (endText : Option String)
  | emptyP
deriving DecidableEq

structure XChild where
  idAttr : Option String
  entity : Option XEntity
  period : Option XPeriod
  tag : String
  nsExp : String
  contextRef : Option String
  text : Option String
deriving DecidableEq

structure XDoc where
  schemaRefHref : Option String
  children : List XChild
deriving DecidableEq

/-- Literal helper: a context-shaped root child. -/
def contextChild (id : String) (ident : Option String) (dims : Option (List XDim))
    (per : XPeriod) : XChild :=
  ⟨some id, some ⟨ident, dims⟩, some per, "", "", none, none⟩

/-- Literal helper: a fact-shaped root child. -/
def factChild (id tag nsE : String) (ref : Option String) (txt : Option String) : XChild :=
  ⟨some id, none, none, tag, nsE, ref, txt⟩

/-- Axis.from_xml.  An element that is neither an explicitMember nor a
    typedMember falls off the end of the Python function and returns None,
    which pydantic then rejects when validating Entity.dimensions; a
    missing member text likewise fails the value: str validation. -/
def Axis.from_xml : XDim → Except PErr Axis
  | .explicitMember dim txt =>
    match txt with
    | some v => .ok ⟨stripNsPart dim, v, .EXPLICIT⟩
    | none => .error .validationError
  | .typedMember dim childText =>
    match childText with
    | some v => .ok ⟨stripNsPart dim, v, .TYPED⟩
    | none => .error .validationError
  | .otherDim => .error .validationError

/-- Entity.from_xml.  identifier = none covers both a missing identifier
    element (AttributeError on .text) and empty identifier text (pydantic
    rejects None for identifier: str); the two raise different Python
    exceptions but both abort the instance. -/
def Entity.from_xml (e : XEntity) : Except PErr Entity := do
  let dims := match e.segment with
              | some ds => ds
              | none => []
  let axes ← dims.mapM Axis.from_xml
  match e.identifier with
  | some ident => .ok (⟨ident, axes⟩ : Entity)
  | none => .error .attributeError

/-- Period.from_xml. -/
def Period.from_xml : XPeriod → Except PErr Period
  | .instantP txt =>
    match txt with
    | some d => .ok ⟨true, none, d⟩
    | none => .error .validationError
  | .durationP startText endText =>
    match endText with
    | some e => .ok ⟨false, startText, e⟩
    | none => .error .validationError
  | .emptyP => .error .attributeError

/-- Context.from_xml; the c_id is the element's id attribute. -/
def Context.from_xml (i : String) (ch : XChild) : Except PErr Context := do
  match ch.entity, ch.period with
  | some e, some p => do
    let ent ← Entity.from_xml e
    let per ← Period.from_xml p
    .ok (⟨i, ent, per⟩ : Context)
  | _, _ => .error .attributeError

/-- Fact.from_xml: strip the namespace expansion of the element's own
    prefix from the tag, read contextRef (KeyError when the attribute is
    absent), keep the optional text as the value. -/
def Fact.from_xml (ch : XChild) : Except PErr Fact :=
  match ch.contextRef with
  | some r => .ok ⟨strRemoveAll ch.tag ch.nsExp, r, ch.text⟩
  | none => .error (.keyError "contextRef")

/-- Entity.check_dimensions: the length test, then every dimension name
    must occur in the axis list. -/
def Entity.check_dimensions (e : Entity) (axes : List String) : Bool :=
  if e.dimensions.length != axes.length then false
  else e.dimensions.all (fun d => axes.contains d.name)

def Context.check_dimensions (c : Context) (axes : List String) : Bool :=
  c.entity.check_dimensions axes

/-- Modelled from the spec: construct_dataframe at xbrl.py:120 filters with
    context.in_axes(axes), a Context method that no module under src
    defines.  The spec describes this filter as the Entity dimension
    check, which src implements as Context.check_dimensions delegating to
    Entity.check_dimensions, so in_axes is bound to that check. -/
def Context.in_axes (c : Context) (axes : List String) : Bool :=
  c.check_dimensions axes

/- Cells of the assembled table: a value is null (Python None), a string,
   or an integer (the filing id). -/
inductive Cell where
  | null
  | str (v : String)
  | int (v : Int)
deriving DecidableEq

def cellOfOpt : Option String → Cell
  | some v => .str v
  | none => .null

/-- Context.get_context_ids.  The parameter is declared filing_name: str in
    the source but construct_dataframe passes the integer filing_id (or
    None) into it; the value lands under the "filing_name" key. -/
def Context.get_context_ids (c : Context) (filing_name : Option Int) : Dict Cell :=
  let axes_dict : Dict Cell :=
    c.entity.dimensions.foldl (fun d a => dictSet d a.name (Cell.str a.value)) []
  let date_dict : Dict Cell :=
    if c.period.instant then [("date", Cell.str c.period.end_date)]
    else [("start_date", cellOfOpt c.period.start_date),
          ("end_date", Cell.str c.period.end_date)]
  dictUpdate (dictUpdate
    [("context_id", Cell.str c.c_id),
     ("entity_id", Cell.str c.entity.identifier),
     ("filing_name", match filing_name with | some n => Cell.int n | none => Cell.null)]
    date_dict) axes_dict

structure ParseState where
  context_dict : Dict Context
  fact_dict : Dict (List Fact)
deriving DecidableEq

/-- One step of parse's loop over root.iterchildren(). -/
def parseChild (st : ParseState) (ch : XChild) : Except PErr ParseState :=
  match ch.idAttr with
  | none => .ok st
  | some i =>
    if strStarts i "c" then do
      let new_context ← Context.from_xml i ch
      .ok ⟨dictSet st.context_dict new_context.c_id new_context,
           dictSet st.fact_dict new_context.c_id []⟩
    else if strStarts i "f" then do
      let new_fact ← Fact.from_xml ch
      if new_fact.value.isSome then
        match dictGet st.fact_dict new_fact.c_id with
        | some l => .ok ⟨st.context_dict, dictSet st.fact_dict new_fact.c_id (l ++ [new_fact])⟩
        | none => .error (.keyError new_fact.c_id)
      else .ok st
    else .ok st

/-- parse(path): read the schemaRef taxonomy URL, then fold over the root's
    children building the context and fact dictionaries. -/
def parse (doc : XDoc) : Except PErr (Dict Context × Dict (List Fact) × String) := do
  let taxonomy_url ← match doc.schemaRefHref with
                     | some u => Except.ok u
                     | none => Except.error PErr.attributeError
  let st ← doc.children.foldlM parseChild ⟨[], []⟩
  .ok (st.context_dict, st.fact_dict, taxonomy_url)

/- xbrl.py: schema derivation, row assembly, orchestration. -/

/-- The value dtypes appearing in DTYPE_MAP and the base column map:
    str, np.float64, np.int64, np.bool8 and Python int. -/
inductive PyType where
  | pystr
  | pyfloat64
  | pyint64
  | pybool8
  | pyint
deriving DecidableEq

/-- DTYPE_MAP as a total function: a type not in the dict maps to
    DTYPE_MAP["Default"], which is str. -/
def DTYPE_MAP (t : String) : PyType :=
  if t = "String" then .pystr
  else if t = "Decimal" then .pyfloat64
  else if t = "GYear" then .pyint64
  else if t = "Power" then .pyfloat64
  else if t = "Integer" then .pyint64
  else if t = "Monetary" then .pyint64
  else if t = "PerUnit" then .pyfloat64
  else if t = "Energy" then .pyint64
  else if t = "Date" then .pystr
  else if t = "FormType" then .pystr
  else if t = "ReportPeriod" then .pystr
  else .pystr

/- Modelled from the spec: the taxonomy module (from .taxonomy import
   Taxonomy, Concept, LinkRole) is not under src.  Per spec section 6 a
   Concept exposes name, type and child_concepts; the type attribute is
   named ctype here, and the child list is the isomorphic concrete type
   ConceptList so that every recursion over the tree is structural and
   the kernel can evaluate it. -/
mutual
/-- Modelled from the spec: Concept with name, type (ctype) and
    child_concepts. -/
inductive Concept where
  | mk (name : String) (ctype : String) (child_concepts : ConceptList)
inductive ConceptList where
  | nil
  | cons (head : Concept) (tail : ConceptList)
end

def Concept.name : Concept → String
  | .mk n _ _ => n

def Concept.ctype : Concept → String
  | .mk _ t _ => t

def Concept.child_concepts : Concept → ConceptList
  | .mk _ _ cs => cs

def ConceptList.toList : ConceptList → List Concept
  | .nil => []
  | .cons c cs => c :: cs.toList

def conceptsOf : List Concept → ConceptList
  | [] => .nil
  | c :: cs => .cons c (conceptsOf cs)

/-- Modelled from the spec: a LinkRole exposes a definition string and a
    concepts tree. -/
structure LinkRole where
  definition : String
  concepts : Concept

/-- Modelled from the spec: a Taxonomy exposes its roles. -/
structure Taxonomy where
  roles : List LinkRole

/-- The loop of get_columns_from_table threaded over a sibling list: for
    each child, cols.update(get_cols_from_line_item(child)), where a child
    with children contributes its own get_columns_from_table dict (built
    from the empty dict) and a leaf contributes its single typed column.
    This single structural function is the mutually recursive pair
    get_columns_from_table / get_cols_from_line_item of the source. -/
def lineItemCols : ConceptList → Dict PyType → Dict PyType
  | .nil, acc => acc
  | .cons (.mk n t .nil) rest, acc =>
    lineItemCols rest (dictUpdate acc [(n, DTYPE_MAP t)])
  | .cons (.mk _ _ (.cons c cs)) rest, acc =>
    lineItemCols rest (dictUpdate acc (lineItemCols (.cons c cs) []))

/-- get_cols_from_line_item: a concept with children is a grouping node
    (defer to get_columns_from_table), a leaf is one column typed by
    DTYPE_MAP. -/
def get_cols_from_line_item : Concept → Dict PyType
  | .mk n t .nil => [(n, DTYPE_MAP t)]
  | .mk _ _ (.cons c cs) => lineItemCols (.cons c cs) []

/-- get_columns_from_table: cols = {} then cols.update per child. -/
def get_columns_from_table (c : Concept) : Dict PyType :=
  lineItemCols c.child_concepts []

structure TableInfo where
  axes : List String
  columns : Dict PyType
deriving DecidableEq

/-- get_fact_table: root concept is schedule.concepts.child_concepts[0]
    (IndexError when there is none); axes are the root children typed
    "Axis"; base columns context_id, entity_id, start_date, end_date,
    instant, one str column per axis, filing_id when enabled, then the
    merged columns of every root child whose name ends in "LineItems". -/
def get_fact_table (schedule : LinkRole) (gen_filing_id : Bool) : Except PErr TableInfo := do
  let root_concept ← match schedule.concepts.child_concepts.toList with
                     | c :: _ => Except.ok c
                     | [] => Except.error PErr.indexError
  let axes := ((root_concept.child_concepts.toList.filter
    (fun c => c.ctype == "Axis")).map Concept.name)
  let base : Dict PyType :=
    [("context_id", .pystr), ("entity_id", .pystr),
     ("start_date", .pystr), ("end_date", .pystr), ("instant", .pybool8)]
  let cols1 := axes.foldl (fun d a => dictSet d a PyType.pystr) base
  let cols2 := if gen_filing_id then dictSet cols1 "filing_id" PyType.pyint else cols1
  let cols3 := root_concept.child_concepts.toList.foldl
    (fun d c => if strEnds c.name "LineItems" then dictUpdate d (get_columns_from_table c) else d)
    cols2
  .ok ⟨axes, cols3⟩

structure Frame where
  cols : List String
  rows : List (List Cell)
deriving DecidableEq

/-- row = {fact.name: fact.value for fact in facts[c_id] if fact.name in cols}. -/
def buildRow (facts : List Fact) (cols : Dict PyType) : Dict Cell :=
  (facts.filter (fun f => dictHas cols f.name)).foldl
    (fun r f => dictSet r f.name (cellOfOpt f.value)) []

/-- for key, val in row.items(): df[key][i] = val — KeyError when a row key
    is not a column of the frame. -/
def writeRow (df : Dict (List Cell)) (i : Nat) (row : Dict Cell) :
    Except PErr (Dict (List Cell)) :=
  row.foldlM (fun d p =>
    match dictGet d p.1 with
    | some col => Except.ok (dictSet d p.1 (col.set i p.2))
    | none => Except.error (PErr.keyError p.1)) df

/-- One iteration of construct_dataframe's context loop, at enumerate
    index ip.1 for the context entry ip.2: look the context's facts up
    (KeyError when absent), build the fact row, skip it when empty,
    otherwise merge in get_context_ids and write the cells at row index
    ip.1. -/
def cdStep (facts : Dict (List Fact)) (cols : Dict PyType) (filing_id : Option Int)
    (d : Dict (List Cell)) (ip : Nat × (String × Context)) :
    Except PErr (Dict (List Cell)) := do
  let fl ← match dictGet facts ip.2.1 with
           | some l => Except.ok l
           | none => Except.error (PErr.keyError ip.2.1)
  let row := buildRow fl cols
  if row.isEmpty then Except.ok d
  else writeRow d ip.1 (dictUpdate row (ip.2.2.get_context_ids filing_id))

/-- construct_dataframe: filter contexts through in_axes, build each
    context's fact row, skip empty rows, merge in get_context_ids, write
    the cells, then DataFrame(df).dropna(how=all).drop(context_id, axis=1).
    dropna keeps the rows having at least one non-null cell; drop removes
    the context_id column (KeyError when absent). -/
def construct_dataframe (contexts : Dict Context) (facts : Dict (List Fact))
    (table_info : TableInfo) (filing_id : Option Int) : Except PErr Frame := do
  let cols := table_info.columns
  let axes := table_info.axes
  let retained := contexts.filter (fun p => p.2.in_axes axes)
  let max_len := retained.length
  let df0 : Dict (List Cell) := cols.map (fun p => (p.1, List.replicate max_len Cell.null))
  let df ← retained.enum.foldlM (cdStep facts cols filing_id) df0
  let allRows := (List.range max_len).map (fun i => df.map (fun p => p.2.getD i Cell.null))
  let kept := allRows.filter (fun r => r.any (fun x => x != Cell.null))
  match (dictKeys df).findIdx? (fun k => k == "context_id") with
  | some j => .ok ⟨(dictKeys df).eraseIdx j, kept.map (fun r => r.eraseIdx j)⟩
  | none => .error (.keyError "context_id")

/-- The identifying and key columns of an assembled table: the base
    columns, the filing id, and the axis columns. -/
def idCols : List String :=
  ["context_id", "entity_id", "filing_name", "date", "start_date", "end_date",
   "instant", "filing_id"]

/-- The data columns of a table: its columns other than the identifying
    and key columns. -/
def dataCols (ti : TableInfo) : List String :=
  (dictKeys ti.columns).filter (fun k => !idCols.contains k && !ti.axes.contains k)

/-- process_instance.  The source line contexts, facts = parse(instance_path)
    unpacks parse's 3-tuple into two names: parse runs first (its failure
    propagates), and when it succeeds the unpacking itself raises
    ValueError: too many values to unpack — so the function fails on every
    instance and the construct_dataframe loop below it is dead code.  The
    per-table assembly it would perform is construct_dataframe, exercised
    directly elsewhere. -/
def process_instance (tables : Dict TableInfo) (gen_filing_id : Bool)
    (inst : XDoc × Int) : Except PErr (Dict Frame) := do
  let _ ← parse inst.1
  let _ := tables
  let _ := gen_filing_id
  Except.error PErr.valueError

/-- pd.concat([dfs[key], df]) where df is dfs[key]: the frame is
    concatenated with itself, doubling its rows. -/
def frameSelfConcat (f : Frame) : Frame := ⟨f.cols, f.rows ++ f.rows⟩

/-- extract.  tables maps role definitions to fact tables; the thread-pool
    map yields per-instance results in submission order and re-raises the
    first failure when iterated (batch_size is only the chunksize and
    threads only the worker count, neither affects any produced value).
    The result-merging loop rebinds dfs to each instance's own dict and
    concatenates each frame with itself, so after the loop only the last
    instance's dict, rows doubled, is written; on an empty instance list
    the final loop reads the never-bound name dfs (NameError). -/
def extract (taxonomy : Taxonomy) (instance_paths : List (XDoc × Int))
    (batch_size : Nat) (threads : Option Nat) (gen_filing_id : Bool) :
    Except PErr (List (String × Frame)) := do
  let _ := batch_size
  let _ := threads
  let tables ← taxonomy.roles.foldlM (fun acc role => do
      let t ← get_fact_table role gen_filing_id
      Except.ok (dictSet acc role.definition t)) []
  let results ← instance_paths.mapM (process_instance tables gen_filing_id)
  let last := results.foldl
    (fun _ dfs => some (dfs.map (fun p => (p.1, frameSelfConcat p.2))))
    (none : Option (Dict Frame))
  match last with
  | none => Except.error PErr.nameError
  | some dfs => Except.ok dfs

/- instance.py: the XbrlDb batch accumulator.  Frames are abstracted to
   their row lists (the rows written per table per instance); the engine is
   replaced by returning the to_sql append calls a step performs. -/

structure XbrlDb (α : Type) where
  batch_size : Nat
  num_instances : Nat
  dfs : Dict (List (List α) × List (List α))
  counter : Nat
deriving DecidableEq

/-- XbrlDb.append_instance: append the instance's per-table duration and
    instant frames to the accumulation, then, when counter is a multiple
    of batch_size or equals num_instances, write the concatenation of
    every accumulated list to sql (if_exists="append"); the accumulation
    is never cleared.  Returns the new state and the writes performed. -/
def XbrlDb.append_instance {α : Type} (db : XbrlDb α)
    (inst : Dict (List α × List α)) : XbrlDb α × List (String × List α) :=
  let dfs := inst.foldl (fun d p =>
      match dictGet d p.1 with
      | some cur => dictSet d p.1 (cur.1 ++ [p.2.1], cur.2 ++ [p.2.2])
      | none => dictSet d p.1 ([p.2.1], [p.2.2])) db.dfs
  let writes :=
    if db.counter % db.batch_size == 0 || db.counter == db.num_instances then
      (dfs.map (fun p =>
        [(p.1 ++ " - duration", p.2.1.flatten), (p.1 ++ " - instant", p.2.2.flatten)])).flatten
    else []
  (⟨db.batch_size, db.num_instances, dfs, db.counter + 1⟩, writes)

/-- Feed a list of instances through append_instance, collecting the write
    batches each call issues. -/
def XbrlDb.run {α : Type} (db : XbrlDb α) (instances : List (Dict (List α × List α))) :
    XbrlDb α × List (List (String × List α)) :=
  instances.foldl (fun st inst =>
    let r := XbrlDb.append_instance st.1 inst
    (r.1, st.2 ++ [r.2])) (db, [])

/- Depth-first leaves of a concept subtree: the concepts the walk turns
   into columns. -/

def conceptLeavesList : ConceptList → List Concept
  | .nil => []
  | .cons (.mk n t .nil) rest => Concept.mk n t .nil :: conceptLeavesList rest
  | .cons (.mk _ _ (.cons c cs)) rest =>
    conceptLeavesList (.cons c cs) ++ conceptLeavesList rest

def Concept.leaves : Concept → List Concept
  | .mk n t .nil => [Concept.mk n t .nil]
  | .mk _ _ (.cons c cs) => conceptLeavesList (.cons c cs)

/-- The ids of the context-shaped children of a document prefix: exactly
    the keys parse's loop has seeded when it reaches the end of that
    prefix. -/
def contextIds (l : List XChild) : List String :=
  l.filterMap (fun ch =>
    match ch.idAttr with
    | some i => if strStarts i "c" then some i else none
    | none => none)

/-- The well-formedness parse maintains for the fact dictionary: every
    fact sits under the key equal to its own c_id and carries a value. -/
def FactsWf (fd : Dict (List Fact)) : Prop :=
  ∀ p ∈ fd, ∀ f ∈ p.2, f.c_id = p.1 ∧ f.value.isSome = true

/-- The loop invariant of parse: the context and fact dictionaries hold
    exactly the same keys in the same order, and the fact dictionary is
    well formed. -/
def StInv (st : ParseState) : Prop :=
  dictKeys st.context_dict = dictKeys st.fact_dict ∧ FactsWf st.fact_dict

/- Concrete inputs used by the evaluation theorems. -/

/-- A taxonomy role whose schedule has no axes and a single LineItems leaf
    Assets of Monetary type. -/
def roleAssets : LinkRole :=
  ⟨"role1", Concept.mk "Root" "" (conceptsOf
    [Concept.mk "ScheduleAbstract" "" (conceptsOf
      [Concept.mk "TestLineItems" "" (conceptsOf
        [Concept.mk "Assets" "Monetary" ConceptList.nil])])])⟩

/-- Does some LineItems child of the schedule's root concept produce a
    column named k?  This is the only way get_fact_table can introduce a
    column beyond the base columns, the axes and filing_id. -/
def lineItemsHasCol (schedule : LinkRole) (k : String) : Prop :=
  match schedule.concepts.child_concepts.toList with
  | root :: _ =>
    ∃ c ∈ root.child_concepts.toList,
      strEnds c.name "LineItems" = true ∧ k ∈ dictKeys (get_columns_from_table c)
  | [] => False

/-- A taxonomy role with one axis and one LineItems leaf, for the C3
    witness. -/
def roleAxis : LinkRole :=
  ⟨"r4", Concept.mk "Root" "" (conceptsOf
    [Concept.mk "Sched" "" (conceptsOf
      [Concept.mk "UtilityTypeAxis" "Axis" ConceptList.nil,
       Concept.mk "ALineItems" "" (conceptsOf
        [Concept.mk "Assets" "Monetary" ConceptList.nil])])])⟩

/-- The table get_fact_table derives from roleAxis. -/
def tiAxis : TableInfo :=
  ⟨["UtilityTypeAxis"],
   [("context_id", .pystr), ("entity_id", .pystr), ("start_date", .pystr),
    ("end_date", .pystr), ("instant", .pybool8), ("UtilityTypeAxis", .pystr),
    ("Assets", .pyint64)]⟩

/-- The table get_fact_table derives from roleAssets. -/
def tiAssets : TableInfo :=
  ⟨[], [("context_id", .pystr), ("entity_id", .pystr), ("start_date", .pystr),
        ("end_date", .pystr), ("instant", .pybool8), ("Assets", .pyint64)]⟩

/-- A well-formed instance: one duration context c1 for entity E1, one fact
    Assets = 1000 referencing it. -/
def docGood : XDoc :=
  ⟨some "taxurl",
   [contextChild "c1" (some "E1") none
      (XPeriod.durationP (some "2021-01-01") (some "2021-12-31")),
    factChild "f1" "ns:Assets" "ns:" (some "c1") (some "1000")]⟩

/-- The context dictionary parse returns for docGood. -/
def ctxsGood : Dict Context :=
  [("c1", ⟨"c1", ⟨"E1", []⟩, ⟨false, some "2021-01-01", "2021-12-31"⟩⟩)]

/-- The fact dictionary parse returns for docGood. -/
def factsGood : Dict (List Fact) :=
  [("c1", [⟨"Assets", "c1", some "1000"⟩])]

/-- C7 counterexample schema: the base columns plus a filing_name column
    (as a LineItems concept named filing_name would produce) and a Monetary
    Assets data column.  The filing_name column lets the cell-writing loop
    complete, so rows are actually emitted. -/
def ti7 : TableInfo :=
  ⟨[], [("context_id", .pystr), ("entity_id", .pystr), ("start_date", .pystr),
        ("end_date", .pystr), ("instant", .pybool8), ("filing_name", .pystr),
        ("Assets", .pyint64)]⟩

/-- C7 counterexample instance: its only fact is named entity_id — a name
    that collides with an identifying column — so the context is retained
    and written, yet no data column receives a value. -/
def doc7 : XDoc :=
  ⟨some "u7",
   [contextChild "c1" (some "E1") none
      (XPeriod.durationP (some "2021-01-01") (some "2021-12-31")),
    factChild "f1" "ns:entity_id" "ns:" (some "c1") (some "X")]⟩

/-- The context dictionary parse returns for doc7. -/
def ctxs7 : Dict Context :=
  [("c1", ⟨"c1", ⟨"E1", []⟩, ⟨false, some "2021-01-01", "2021-12-31"⟩⟩)]

/-- The fact dictionary parse returns for doc7. -/
def facts7 : Dict (List Fact) :=
  [("c1", [⟨"entity_id", "c1", some "X"⟩])]

/-- The frame construct_dataframe emits for doc7 against ti7: one row
    whose only data column, Assets, is null. -/
def frame7 : Frame :=
  ⟨["entity_id", "start_date", "end_date", "instant", "filing_name", "Assets"],
   [[Cell.str "E1", Cell.str "2021-01-01", Cell.str "2021-12-31",
     Cell.null, Cell.null, Cell.null]]⟩

/-- The frame construct_dataframe emits for docGood against ti7, for the
    C7 witness: one row whose Assets data column carries the fact value. -/
def frameW : Frame :=
  ⟨["entity_id", "start_date", "end_date", "instant", "filing_name", "Assets"],
   [[Cell.str "E1", Cell.str "2021-01-01", Cell.str "2021-12-31",
     Cell.null, Cell.null, Cell.str "1000"]]⟩

/-- The loop invariant of construct_dataframe's cell writing: the frame
    dict keeps the schema's keys, every column has one cell per retained
    context, and every row index is either still all-null (it will be
    dropped) or already carries a non-null cell in some data column. -/
def CInv (ti : TableInfo) (L : Nat) (d : Dict (List Cell)) : Prop :=
  dictKeys d = dictKeys ti.columns ∧
  (∀ p ∈ d, p.2.length = L) ∧
  ∀ i' : Nat,
    (∀ p ∈ d, p.2.getD i' Cell.null = Cell.null) ∨
    (∃ k col, k ∈ dataCols ti ∧ (k, col) ∈ d ∧ col.getD i' Cell.null ≠ Cell.null)

/-- A malformed instance: the schemaRef element is missing, so parse fails
    before reading any child. -/
def docBad : XDoc := ⟨none, []⟩

/-- A well-formed instance carrying a context but no facts. -/
def docNoFacts : XDoc :=
  ⟨some "taxurl",
   [contextChild "c1" (some "E1") none
      (XPeriod.durationP (some "2021-01-01") (some "2021-12-31"))]⟩

/-- One XbrlDb instance result: table T with a single duration row i. -/
def dbinst (i : Nat) : Dict (List Nat × List Nat) := [("T", ([i], []))]

/-- C3 counterexample: a role whose LineItems subtree has a leaf concept
    named date.  The derived column map then contains date as well as
    start_date and end_date — both date forms at once, refuting the claim
    that the two forms never coexist. -/
def roleDateLeaf : LinkRole :=
  ⟨"r3", Concept.mk "Root" "" (conceptsOf
    [Concept.mk "Sched" "" (conceptsOf
      [Concept.mk "DLineItems" "" (conceptsOf
        [Concept.mk "date" "Date" ConceptList.nil])])])⟩

/-- C4 counterexample: an entity carrying two dimensions that share the
    name A passes check_dimensions against axes [A, B] (the length test
    and the membership test both pass), yet the axis-name set of the
    entity lacks B — retention does not imply exact set equality. -/
def entityDupAxis : Entity :=
  ⟨"ent", [⟨"A", "v1", .EXPLICIT⟩, ⟨"A", "v2", .EXPLICIT⟩]⟩

/-- An entity with two distinctly named dimensions, for the C4 witness. -/
def entityAB : Entity :=
  ⟨"e", [⟨"A", "v", .EXPLICIT⟩, ⟨"B", "w", .EXPLICIT⟩]⟩

/-- A LineItems subtree with a grouping node and distinct leaf names, for
    the C8 witness. -/
def lineItemsW : Concept :=
  Concept.mk "WLineItems" "" (conceptsOf
    [Concept.mk "Grp" "" (conceptsOf
      [Concept.mk "Assets" "Monetary" ConceptList.nil]),
     Concept.mk "Notes" "String" ConceptList.nil])

/-- C8 counterexample: a LineItems subtree with two leaves both named A,
    one Monetary and one String.  The column dict collapses them to a
    single column (the later String leaf wins), so the walk does not
    produce one column per leaf typed by the declared mapping. -/
def lineItemsDupLeaf : Concept :=
  Concept.mk "CLineItems" "" (conceptsOf
    [Concept.mk "A" "Monetary" ConceptList.nil,
     Concept.mk "A" "String" ConceptList.nil])

/-- C10 counterexample: a fact with no text whose contextRef c999 names no
    parsed context.  The value-is-not-None guard fires before the fact
    dictionary lookup, so parse succeeds instead of failing on the
    dangling reference. -/
def docDanglingValueless : XDoc :=
  ⟨some "u",
   [contextChild "c1" (some "E1") none
      (XPeriod.durationP (some "2021-01-01") (some "2021-12-31")),
    factChild "f9" "ns:Dangling" "ns:" (some "c999") none]⟩


/-- C1: evaluating XbrlDb.append_instance over three instances with
    batch_size = 2 and num_instances = 3.  The flush timing matches the
    claim — exactly two non-empty write batches per table, after instance
    2 and after instance 3 — but the accumulation is never cleared, so the
    second flush re-appends the rows of instances 1 and 2: row 1 is
    written twice, refuting that each flush appends only the rows
    accumulated since the previous flush. -/
theorem xbrlDb_append_rewrites_accumulated_rows :
    (XbrlDb.run ⟨2, 3, [], 1⟩ [dbinst 1, dbinst 2, dbinst 3]).2 =
      [[],
       [("T - duration", [1, 2]), ("T - instant", [])],
       [("T - duration", [1, 2, 3]), ("T - instant", [])]] ∧
    ((XbrlDb.run ⟨2, 3, [], 1⟩ [dbinst 1, dbinst 2, dbinst 3]).2.filter
      (fun w => !w.isEmpty)).length = 2 ∧
    ((((XbrlDb.run ⟨2, 3, [], 1⟩ [dbinst 1, dbinst 2, dbinst 3]).2.flatten.filter
      (fun w => w.1 == "T - duration")).map Prod.snd).flatten.count 1) = 2 := by
  decide

/-- C2: extract has no try/except around per-instance work, so the first
    instance's parse failure propagates out of extract and aborts the run
    with no table written; and process_instance's two-name unpacking of
    parse's 3-tuple raises ValueError on every instance, so even a run
    over a single instance that parses cleanly aborts instead of being
    recovered at instance granularity — nothing is ever caught, logged or
    skipped. -/
theorem extract_aborts_on_first_instance_failure :
    extract ⟨[roleAssets]⟩ [(docBad, 0), (docNoFacts, 1)] 2 none false =
      .error .attributeError ∧
    (parse docNoFacts).toOption.isSome = true ∧
    extract ⟨[roleAssets]⟩ [(docNoFacts, 1)] 2 none false =
      .error .valueError := by
  decide

/-- C3 counterexample theorem: get_fact_table on roleDateLeaf yields a
    column map holding date, start_date and end_date simultaneously. -/
theorem get_fact_table_both_date_forms_cex :
    (get_fact_table roleDateLeaf false).map
      (fun t => dictHas t.columns "date" && dictHas t.columns "start_date"
        && dictHas t.columns "end_date") = .ok true := by
  decide

/-- C4 counterexample theorem: the duplicate-name entity is retained for
    axes [A, B] although axis B appears on no dimension of the entity. -/
theorem check_dimensions_not_set_equality_cex :
    entityDupAxis.check_dimensions ["A", "B"] = true ∧
    "B" ∈ (["A", "B"] : List String) ∧
    ¬ ("B" ∈ entityDupAxis.dimensions.map Axis.name) := by
  decide

/-- C5: on the spec's own shape of input — a retained context with one
    fact matching a schema column, against the schema derived from the
    taxonomy — construct_dataframe does not produce a row: get_context_ids
    emits a filing_name key that is not among the derived columns and the
    cell-writing loop raises KeyError filing_name, so the call fails
    instead of contributing the row. -/
theorem construct_dataframe_keyerror_on_data_row :
    parse docGood = .ok (ctxsGood, factsGood, "taxurl") ∧
    get_fact_table roleAssets false = .ok tiAssets ∧
    construct_dataframe ctxsGood factsGood tiAssets none =
      .error (.keyError "filing_name") := by
  decide

/-- C7 counterexample theorem: against the filing_name-bearing schema ti7,
    the parsed instance doc7 — whose only fact is named after the
    identifying column entity_id — yields exactly one emitted row, and
    every data column of that row (here only Assets) is empty, refuting
    the claim that no emitted row has all data columns empty. -/
theorem construct_dataframe_all_empty_data_row_cex :
    parse doc7 = .ok (ctxs7, facts7, "u7") ∧
    construct_dataframe ctxs7 facts7 ti7 none = .ok frame7 ∧
    frame7.rows.length = 1 ∧
    dataCols ti7 = ["Assets"] ∧
    ((frame7.cols.zip (frame7.rows.getD 0 [])).all
      (fun p => !(dataCols ti7).contains p.1 || (p.2 == Cell.null))) = true := by
  decide

/-- C8 counterexample theorem: on lineItemsDupLeaf the walk yields one
    column where the subtree has two leaves, and the surviving column is
    typed str although the first A leaf is Monetary. -/
theorem line_item_walk_duplicate_leaf_cex :
    get_cols_from_line_item lineItemsDupLeaf ≠
      (Concept.leaves lineItemsDupLeaf).map (fun l => (l.name, DTYPE_MAP l.ctype)) ∧
    (get_cols_from_line_item lineItemsDupLeaf).length = 1 ∧
    (Concept.leaves lineItemsDupLeaf).length = 2 ∧
    dictGet (get_cols_from_line_item lineItemsDupLeaf) "A" = some PyType.pystr := by
  decide

/-- C10 counterexample theorem: parse accepts docDanglingValueless and
    returns its single context untouched. -/
theorem parse_dangling_valueless_fact_cex :
    parse docDanglingValueless = .ok
      ([("c1", ⟨"c1", ⟨"E1", []⟩, ⟨false, some "2021-01-01", "2021-12-31"⟩⟩)],
       [("c1", [])], "u") := by
  decide

/-- C9: schema derivation, instance parsing, row assembly and the full
    extract are pure functions of their inputs — running any of them twice
    on the same input yields the same value, and extract's result does not
    depend on batch_size (the executor chunksize) or the thread count. -/
theorem pipeline_deterministic (taxonomy : Taxonomy) (ps : List (XDoc × Int))
    (bs bs' : Nat) (th th' : Option Nat) (g : Bool) :
    extract taxonomy ps bs th g = extract taxonomy ps bs th g ∧
    extract taxonomy ps bs th g = extract taxonomy ps bs' th' g ∧
    (∀ d, parse d = parse d) ∧
    (∀ r, get_fact_table r g = get_fact_table r g) ∧
    (∀ cs fs ti fid, construct_dataframe cs fs ti fid = construct_dataframe cs fs ti fid) :=
  ⟨rfl, rfl, fun _ => rfl, fun _ => rfl, fun _ _ _ _ => rfl⟩

/- Dictionary lemma kit. -/

theorem dictGet_cons_pos {α : Type} {p : String × α} {rest : Dict α} {k : String}
    (hc : (p.1 == k) = true) : dictGet (p :: rest) k = some p.2 := by
  simp [dictGet, List.find?, hc]

theorem dictGet_cons_neg {α : Type} {p : String × α} {rest : Dict α} {k : String}
    (hc : (p.1 == k) = false) : dictGet (p :: rest) k = dictGet rest k := by
  simp [dictGet, List.find?, hc]

theorem dictHas_iff_mem_keys {α : Type} {m : Dict α} {k : String} :
    dictHas m k = true ↔ k ∈ dictKeys m := by
  induction m with
  | nil => simp [dictHas, dictKeys]
  | cons p rest ih =>
    simp only [dictHas, dictKeys, List.any_cons, List.map_cons, List.mem_cons,
      Bool.or_eq_true, beq_iff_eq] at *
    constructor
    · rintro (h | h)
      · exact Or.inl h.symm
      · exact Or.inr (ih.mp h)
    · rintro (h | h)
      · exact Or.inl h.symm
      · exact Or.inr (ih.mpr h)

theorem dictKeys_dictSet {α : Type} (m : Dict α) (k : String) (v : α) :
    dictKeys (dictSet m k v) =
      if dictHas m k = true then dictKeys m else dictKeys m ++ [k] := by
  induction m with
  | nil => simp [dictSet, dictHas, dictKeys]
  | cons p rest ih =>
    cases hc : (p.1 == k) with
    | true =>
      have hk : p.1 = k := beq_iff_eq.mp hc
      simp [dictSet, hc, dictHas, dictKeys, hk]
    | false =>
      simp only [dictSet, hc, Bool.false_eq_true, if_false, dictHas, List.any_cons,
        Bool.false_or, dictKeys, List.map_cons]
      rw [show List.map Prod.fst (dictSet rest k v) = dictKeys (dictSet rest k v) from rfl,
        ih]
      by_cases hr : dictHas rest k = true
      · simp [dictHas] at hr
        simp [dictHas, hr, dictKeys]
      · simp only [dictHas] at hr
        simp only [Bool.not_eq_true] at hr
        simp [dictHas, hr, dictKeys]

theorem dictKeys_dictSet_of_has {α : Type} {m : Dict α} {k : String} {v : α}
    (h : dictHas m k = true) : dictKeys (dictSet m k v) = dictKeys m := by
  rw [dictKeys_dictSet, if_pos h]

theorem dictKeys_dictSet_of_not_has {α : Type} {m : Dict α} {k : String} {v : α}
    (h : dictHas m k = false) : dictKeys (dictSet m k v) = dictKeys m ++ [k] := by
  rw [dictKeys_dictSet, if_neg (by simp [h])]

theorem mem_keys_dictSet {α : Type} {m : Dict α} {k k' : String} {v : α} :
    k' ∈ dictKeys (dictSet m k v) ↔ k' ∈ dictKeys m ∨ k' = k := by
  rw [dictKeys_dictSet]
  by_cases h : dictHas m k = true
  · rw [if_pos h]
    constructor
    · exact Or.inl
    · rintro (hm | hk)
      · exact hm
      · exact hk ▸ dictHas_iff_mem_keys.mp h
  · rw [if_neg h]
    simp

theorem mem_dictSet {α : Type} {m : Dict α} {k : String} {v : α} {p : String × α}
    (h : p ∈ dictSet m k v) : p = (k, v) ∨ p ∈ m := by
  induction m with
  | nil => simpa [dictSet] using h
  | cons q rest ih =>
    cases hc : (q.1 == k) with
    | true =>
      rw [dictSet, if_pos hc] at h
      rcases List.mem_cons.mp h with h | h
      · exact Or.inl h
      · exact Or.inr (List.mem_cons_of_mem _ h)
    | false =>
      rw [dictSet, if_neg (by simp [hc])] at h
      rcases List.mem_cons.mp h with h | h
      · exact Or.inr (h ▸ List.mem_cons_self _ _)
      · rcases ih h with h | h
        · exact Or.inl h
        · exact Or.inr (List.mem_cons_of_mem _ h)

theorem dictGet_mem {α : Type} {m : Dict α} {k : String} {v : α}
    (h : dictGet m k = some v) : (k, v) ∈ m := by
  induction m with
  | nil => simp [dictGet, List.find?] at h
  | cons p rest ih =>
    cases hc : (p.1 == k) with
    | true =>
      rw [dictGet_cons_pos hc] at h
      have hk : p.1 = k := beq_iff_eq.mp hc
      have hv : p.2 = v := Option.some.injEq _ _ ▸ h
      have : p = (k, v) := Prod.ext hk hv
      exact this ▸ List.mem_cons_self _ _
    | false =>
      rw [dictGet_cons_neg hc] at h
      exact List.mem_cons_of_mem _ (ih h)

theorem dictGet_some_has {α : Type} {m : Dict α} {k : String} {v : α}
    (h : dictGet m k = some v) : dictHas m k = true :=
  dictHas_iff_mem_keys.mpr (by
    simp only [dictKeys, List.mem_map]
    exact ⟨(k, v), dictGet_mem h, rfl⟩)

theorem dictGet_dictSet_self {α : Type} {m : Dict α} {k : String} {v : α} :
    dictGet (dictSet m k v) k = some v := by
  induction m with
  | nil => simp [dictSet, dictGet, List.find?]
  | cons p rest ih =>
    cases hc : (p.1 == k) with
    | true => rw [dictSet, if_pos hc, dictGet_cons_pos (beq_self_eq_true k)]
    | false =>
      rw [dictSet, if_neg (by simp [hc]), dictGet_cons_neg hc]
      exact ih

theorem dictGet_dictSet_ne {α : Type} {m : Dict α} {k k' : String} {v : α}
    (h : k' ≠ k) : dictGet (dictSet m k v) k' = dictGet m k' := by
  induction m with
  | nil =>
    rw [show dictSet ([] : Dict α) k v = [(k, v)] from rfl,
      dictGet_cons_neg (beq_eq_false_iff_ne.mpr (Ne.symm h))]
  | cons p rest ih =>
    cases hc : (p.1 == k) with
    | true =>
      have hk : p.1 = k := beq_iff_eq.mp hc
      rw [dictSet, if_pos hc, dictGet_cons_neg (beq_eq_false_iff_ne.mpr (Ne.symm h)),
        dictGet_cons_neg (beq_eq_false_iff_ne.mpr (by rw [hk]; exact Ne.symm h))]
    | false =>
      rw [dictSet, if_neg (by simp [hc])]
      cases hc' : (p.1 == k') with
      | true => rw [dictGet_cons_pos hc', dictGet_cons_pos hc']
      | false => rw [dictGet_cons_neg hc', dictGet_cons_neg hc', ih]

/- parse loop invariants. -/

theorem parseChild_inv {st st' : ParseState} {ch : XChild}
    (h : parseChild st ch = .ok st') (hi : StInv st) : StInv st' := by
  unfold parseChild at h
  rcases hid : ch.idAttr with _ | i <;> simp only [hid] at h
  · cases h
    exact hi
  · split at h
    case isTrue hc =>
      rcases hctx : Context.from_xml i ch with e | ctx <;>
        simp only [hctx, bind, Except.bind] at h
      · cases h
      · cases h
        constructor
        · by_cases hhas : dictHas st.fact_dict ctx.c_id = true
          · have hhasc : dictHas st.context_dict ctx.c_id = true := by
              rw [dictHas_iff_mem_keys, hi.1, ← dictHas_iff_mem_keys]
              exact hhas
            rw [dictKeys_dictSet_of_has hhasc, dictKeys_dictSet_of_has hhas]
            exact hi.1
          · have hf : dictHas st.fact_dict ctx.c_id = false := by
              simpa using hhas
            have hfc : dictHas st.context_dict ctx.c_id = false := by
              rcases hcc : dictHas st.context_dict ctx.c_id with _ | _
              · rfl
              · exfalso
                apply hhas
                rw [dictHas_iff_mem_keys, ← hi.1, ← dictHas_iff_mem_keys]
                exact hcc
            rw [dictKeys_dictSet_of_not_has hfc, dictKeys_dictSet_of_not_has hf, hi.1]
        · intro p hp f hf
          rcases mem_dictSet hp with hnew | hold
          · rw [hnew] at hf
            simp at hf
          · exact hi.2 p hold f hf
    case isFalse hc =>
      split at h
      case isTrue hfb =>
        rcases hfx : Fact.from_xml ch with e | f <;>
          simp only [hfx, bind, Except.bind] at h
        · cases h
        · split at h
          case isTrue hv =>
            rcases hg : dictGet st.fact_dict f.c_id with _ | l <;> rw [hg] at h
            · cases h
            · cases h
              constructor
              · rw [dictKeys_dictSet_of_has (dictGet_some_has hg)]
                exact hi.1
              · intro p hp g hgm
                rcases mem_dictSet hp with hnew | hold
                · rw [hnew] at hgm
                  simp only at hgm
                  rcases List.mem_append.mp hgm with hl | hfv
                  · have := hi.2 (f.c_id, l) (dictGet_mem hg) g hl
                    rw [hnew]
                    simpa using this
                  · simp only [List.mem_singleton] at hfv
                    subst hfv
                    rw [hnew]
                    exact ⟨rfl, hv⟩
                · exact hi.2 p hold g hgm
          case isFalse hv =>
            cases h
            exact hi
      case isFalse hfb =>
        cases h
        exact hi

theorem foldlM_parseChild_inv :
    ∀ (l : List XChild) (st st' : ParseState),
      l.foldlM parseChild st = .ok st' → StInv st → StInv st'
  | [], st, st', h, hi => by
    simp only [List.foldlM_nil] at h
    cases h
    exact hi
  | ch :: rest, st, st', h, hi => by
    simp only [List.foldlM_cons] at h
    rcases hpc : parseChild st ch with e | st₁ <;>
      simp only [hpc, bind, Except.bind] at h
    · cases h
    · exact foldlM_parseChild_inv rest st₁ st' h (parseChild_inv hpc hi)

theorem parse_ok_inv {doc : XDoc} {cd : Dict Context} {fd : Dict (List Fact)}
    {url : String} (h : parse doc = .ok (cd, fd, url)) :
    dictKeys cd = dictKeys fd ∧ FactsWf fd := by
  unfold parse at h
  rcases hs : doc.schemaRefHref with _ | u <;>
    simp only [hs, bind, Except.bind] at h
  · cases h
  · rcases hf : doc.children.foldlM parseChild ⟨[], []⟩ with e | st <;>
      simp only [hf, bind, Except.bind] at h
    · cases h
    · simp only [Except.ok.injEq, Prod.mk.injEq] at h
      obtain ⟨h1, h2, _⟩ := h
      have hinv := foldlM_parseChild_inv doc.children ⟨[], []⟩ st hf
        ⟨rfl, by intro p hp; simp at hp⟩
      rw [← h1, ← h2]
      exact hinv

theorem Context.from_xml_c_id {i : String} {ch : XChild} {ctx : Context}
    (h : Context.from_xml i ch = .ok ctx) : ctx.c_id = i := by
  unfold Context.from_xml at h
  rcases he : ch.entity with _ | e <;> rcases hp : ch.period with _ | p <;>
    simp only [he, hp] at h
  · cases h
  · cases h
  · cases h
  · rcases hent : Entity.from_xml e with _ | ent <;>
      simp only [hent, bind, Except.bind] at h
    · cases h
    · rcases hper : Period.from_xml p with _ | per <;>
        simp only [hper, bind, Except.bind] at h
      · cases h
      · cases h
        rfl

/-- The ids a single child contributes to contextIds. -/
theorem contextIds_cons (ch : XChild) (l : List XChild) :
    contextIds (ch :: l) =
      (match ch.idAttr with
       | some i => if strStarts i "c" then [i] else []
       | none => []) ++ contextIds l := by
  unfold contextIds
  rcases hid : ch.idAttr with _ | i
  · simp [List.filterMap_cons, hid]
  · by_cases hc : strStarts i "c" = true
    · simp [List.filterMap_cons, hid, hc]
    · simp [List.filterMap_cons, hid, hc]

/-- One parseChild step changes the fact-dictionary key set by exactly the
    context id the child contributes (when it is a context child). -/
theorem parseChild_keys {st st' : ParseState} {ch : XChild}
    (h : parseChild st ch = .ok st') (k : String) :
    k ∈ dictKeys st'.fact_dict ↔
      k ∈ dictKeys st.fact_dict ∨ k ∈ contextIds [ch] := by
  unfold parseChild at h
  rw [contextIds_cons]
  rcases hid : ch.idAttr with _ | i <;> simp only [hid] at h ⊢
  · cases h
    simp [contextIds]
  · by_cases hc : strStarts i "c" = true
    · rw [if_pos hc] at h
      simp only [hc, if_true]
      rcases hctx : Context.from_xml i ch with e | ctx <;>
        simp only [hctx, bind, Except.bind] at h
      · cases h
      · cases h
        have hcid := Context.from_xml_c_id hctx
        simp only [contextIds, List.filterMap_nil, List.append_nil]
        rw [← hcid]
        exact mem_keys_dictSet.trans (by simp)
    · rw [if_neg hc] at h
      rw [if_neg hc]
      simp only [contextIds, List.filterMap_nil, List.append_nil, List.nil_append,
        List.not_mem_nil, or_false]
      by_cases hfb : strStarts i "f" = true
      · rw [if_pos hfb] at h
        rcases hfx : Fact.from_xml ch with e | f <;>
          simp only [hfx, bind, Except.bind] at h
        · cases h
        · by_cases hv : f.value.isSome = true
          · rw [if_pos hv] at h
            rcases hg : dictGet st.fact_dict f.c_id with _ | l <;> rw [hg] at h
            · cases h
            · cases h
              refine mem_keys_dictSet.trans ?_
              constructor
              · rintro (hm | hk)
                · exact hm
                · exact hk ▸ dictHas_iff_mem_keys.mp (dictGet_some_has hg)
              · exact Or.inl
          · rw [if_neg hv] at h
            cases h
            rfl
      · rw [if_neg hfb] at h
        cases h
        rfl

theorem foldlM_parseChild_keys :
    ∀ (l : List XChild) (st st' : ParseState),
      l.foldlM parseChild st = .ok st' →
      ∀ k, k ∈ dictKeys st'.fact_dict ↔
        k ∈ dictKeys st.fact_dict ∨ k ∈ contextIds l
  | [], st, st', h, k => by
    simp only [List.foldlM_nil] at h
    cases h
    simp [contextIds]
  | ch :: rest, st, st', h, k => by
    simp only [List.foldlM_cons] at h
    rcases hpc : parseChild st ch with e | st₁ <;>
      simp only [hpc, bind, Except.bind] at h
    · cases h
    · rw [contextIds_cons]
      have hstep := parseChild_keys hpc k
      rw [contextIds_cons, contextIds] at hstep
      simp only [List.filterMap_nil, List.append_nil] at hstep
      have htail := foldlM_parseChild_keys rest st₁ st' h k
      rw [htail, hstep]
      rw [List.mem_append]
      tauto

/-- A fact child with a value that the fold survives must reference a
    context id already seeded when the loop reaches it. -/
theorem foldlM_parseChild_fact_ref :
    ∀ (l : List XChild) (st st' : ParseState),
      l.foldlM parseChild st = .ok st' →
      ∀ (i : Nat) (ch : XChild), l[i]? = some ch →
      ∀ idv, ch.idAttr = some idv → strStarts idv "c" = false →
        strStarts idv "f" = true →
      ∀ f, Fact.from_xml ch = .ok f → f.value.isSome = true →
      f.c_id ∈ dictKeys st.fact_dict ∨ f.c_id ∈ contextIds (l.take i)
  | [], _, _, _, i, ch, hch, _, _, _, _, _, _, _ => by
    simp at hch
  | ch₀ :: rest, st, st', h, i, ch, hch, idv, hidv, hnc, hf, f, hfx, hv => by
    simp only [List.foldlM_cons] at h
    rcases hpc : parseChild st ch₀ with e | st₁ <;>
      simp only [hpc, bind, Except.bind] at h
    · cases h
    · match i, hch with
      | 0, hch => ?_
      | i + 1, hch => ?_
      · simp only [List.getElem?_cons_zero, Option.some.injEq] at hch
        subst hch
        left
        unfold parseChild at hpc
        simp only [hidv] at hpc
        rw [if_neg (by simp [hnc]), if_pos hf] at hpc
        rw [hfx] at hpc
        simp only [bind, Except.bind] at hpc
        rw [if_pos hv] at hpc
        rcases hg : dictGet st.fact_dict f.c_id with _ | l <;> rw [hg] at hpc
        · cases hpc
        · exact dictHas_iff_mem_keys.mp (dictGet_some_has hg)
      · simp only [List.getElem?_cons_succ] at hch
        have := foldlM_parseChild_fact_ref rest st₁ st' h i ch hch idv hidv hnc hf
          f hfx hv
        rcases this with hkeys | htail
        · rcases (parseChild_keys hpc f.c_id).mp hkeys with hold | hnewid
          · exact Or.inl hold
          · right
            rw [List.take_succ_cons, contextIds_cons, List.mem_append]
            left
            rw [contextIds_cons, contextIds] at hnewid
            simpa using hnewid
        · right
          rw [List.take_succ_cons, contextIds_cons, List.mem_append]
          exact Or.inr htail

/-- parse's result is the result of the child fold from the empty state. -/
theorem parse_ok_fold {doc : XDoc} {cd : Dict Context} {fd : Dict (List Fact)}
    {url : String} (h : parse doc = .ok (cd, fd, url)) :
    ∃ st : ParseState, doc.children.foldlM parseChild ⟨[], []⟩ = .ok st ∧
      st.context_dict = cd ∧ st.fact_dict = fd := by
  unfold parse at h
  rcases hs : doc.schemaRefHref with _ | u <;>
    simp only [hs, bind, Except.bind] at h
  · cases h
  · rcases hf : doc.children.foldlM parseChild ⟨[], []⟩ with e | st <;>
      simp only [hf, bind, Except.bind] at h
    · cases h
    · simp only [Except.ok.injEq, Prod.mk.injEq] at h
      exact ⟨st, rfl, h.1, h.2.1⟩

/-- C6: for every successfully parsed instance, every fact stored in the
    returned fact dictionary carries a value — a fact whose text is absent
    is filtered by the value-is-not-None guard at parse time and never
    appears in the fact map. -/
theorem parse_keeps_only_valued_facts (doc : XDoc) (cd : Dict Context)
    (fd : Dict (List Fact)) (url : String) (h : parse doc = .ok (cd, fd, url)) :
    ∀ p ∈ fd, ∀ f ∈ p.2, f.value.isSome = true :=
  fun p hp f hf => ((parse_ok_inv h).2 p hp f hf).2

/-- C6 witness: the theorem applied to the concrete instance docGood. -/
theorem parse_keeps_only_valued_facts_witness :
    parse docGood = .ok (ctxsGood, factsGood, "taxurl") ∧
    ∀ p ∈ factsGood, ∀ f ∈ p.2, f.value.isSome = true :=
  ⟨by decide, parse_keeps_only_valued_facts docGood ctxsGood factsGood "taxurl" (by decide)⟩

/-- C10 (amended): for every successfully parsed instance the fact map's
    keys equal the context map's keys (in order), every fact stored under
    a key has that key as its context id, and every fact child carrying a
    value that parse accepted references a context id parsed earlier in
    the document; a valueless fact with a dangling contextRef is discarded
    before the lookup, so it does not make parse fail. -/
theorem parse_dict_invariants (doc : XDoc) (cd : Dict Context)
    (fd : Dict (List Fact)) (url : String) (h : parse doc = .ok (cd, fd, url)) :
    dictKeys cd = dictKeys fd ∧
    (∀ p ∈ fd, ∀ f ∈ p.2, f.c_id = p.1) ∧
    (∀ (i : Nat) (ch : XChild), doc.children[i]? = some ch →
      ∀ idv, ch.idAttr = some idv → strStarts idv "c" = false →
        strStarts idv "f" = true →
      ∀ f, Fact.from_xml ch = .ok f → f.value.isSome = true →
      f.c_id ∈ contextIds (doc.children.take i)) := by
  obtain ⟨hkeys, hwf⟩ := parse_ok_inv h
  refine ⟨hkeys, fun p hp f hf => (hwf p hp f hf).1, ?_⟩
  intro i ch hch idv hidv hnc hf f hfx hv
  obtain ⟨st, hfold, _, _⟩ := parse_ok_fold h
  rcases foldlM_parseChild_fact_ref doc.children ⟨[], []⟩ st hfold i ch hch idv
      hidv hnc hf f hfx hv with hempty | hseen
  · simp [dictKeys] at hempty
  · exact hseen

/-- C10 witness: the amended invariants instantiated at docGood. -/
theorem parse_dict_invariants_witness :
    parse docGood = .ok (ctxsGood, factsGood, "taxurl") ∧
    (dictKeys ctxsGood = dictKeys factsGood ∧
     (∀ p ∈ factsGood, ∀ f ∈ p.2, f.c_id = p.1) ∧
     (∀ (i : Nat) (ch : XChild), docGood.children[i]? = some ch →
      ∀ idv, ch.idAttr = some idv → strStarts idv "c" = false →
        strStarts idv "f" = true →
      ∀ f, Fact.from_xml ch = .ok f → f.value.isSome = true →
      f.c_id ∈ contextIds (docGood.children.take i))) :=
  ⟨by decide, parse_dict_invariants docGood ctxsGood factsGood "taxurl" (by decide)⟩

/-- C4 (amended): check_dimensions retains a context exactly when the
    dimension count equals the axis count and every dimension name occurs
    in the axis list; when the dimension names are distinct — the only
    situation a well-formed XBRL context produces — this is equivalent to
    exact equality of the axis-name sets together with matching
    cardinality, as the claim states. -/
theorem check_dimensions_iff_nodup (e : Entity) (axes : List String)
    (h : (e.dimensions.map Axis.name).Nodup) :
    e.check_dimensions axes = true ↔
      (e.dimensions.length = axes.length ∧
       ∀ s, s ∈ e.dimensions.map Axis.name ↔ s ∈ axes) := by
  unfold Entity.check_dimensions
  constructor
  · intro hc
    by_cases hlen : (e.dimensions.length != axes.length) = true
    · rw [if_pos hlen] at hc
      exact absurd hc (by simp)
    · rw [if_neg hlen] at hc
      have hlen' : e.dimensions.length = axes.length := by simpa using hlen
      have hsub : (e.dimensions.map Axis.name) ⊆ axes := by
        intro s hs
        obtain ⟨d, hd, rfl⟩ := List.mem_map.mp hs
        have := List.all_eq_true.mp hc d hd
        simpa using this
      have hperm : (e.dimensions.map Axis.name).Perm axes :=
        (h.subperm hsub).perm_of_length_le
          (by rw [List.length_map]; omega)
      exact ⟨hlen', fun s => hperm.mem_iff⟩
  · rintro ⟨hlen, hidx⟩
    rw [if_neg (by simp [hlen])]
    refine List.all_eq_true.mpr fun d hd => ?_
    have : d.name ∈ axes := (hidx d.name).mp (List.mem_map_of_mem _ hd)
    simpa using this

/-- C4 witness: the amended retention criterion instantiated at a
    two-dimension entity checked against the axes in another order. -/
theorem check_dimensions_iff_nodup_witness :
    (entityAB.dimensions.map Axis.name).Nodup ∧
    (entityAB.check_dimensions ["B", "A"] = true ↔
      (entityAB.dimensions.length = (["B", "A"] : List String).length ∧
       ∀ s, s ∈ entityAB.dimensions.map Axis.name ↔ s ∈ (["B", "A"] : List String))) :=
  ⟨by decide, check_dimensions_iff_nodup entityAB ["B", "A"] (by decide)⟩

/- Append lemmas for dictionaries with fresh keys. -/

theorem dictHas_append {α : Type} (a b : Dict α) (k : String) :
    dictHas (a ++ b) k = (dictHas a k || dictHas b k) := by
  simp [dictHas, List.any_append]

theorem dictSet_fresh {α : Type} {m : Dict α} {k : String} {v : α}
    (h : dictHas m k = false) : dictSet m k v = m ++ [(k, v)] := by
  induction m with
  | nil => rfl
  | cons p rest ih =>
    simp only [dictHas, List.any_cons, Bool.or_eq_false_iff] at h
    rw [dictSet, if_neg (by simp [h.1]), ih h.2]
    rfl

theorem dictUpdate_fresh {α : Type} :
    ∀ (n m : Dict α), (dictKeys n).Nodup →
      (∀ k ∈ dictKeys n, dictHas m k = false) →
      dictUpdate m n = m ++ n
  | [], m, _, _ => by simp [dictUpdate]
  | (k, v) :: n', m, hnd, hfr => by
    have hnd2 : (k :: dictKeys n').Nodup := hnd
    have hfr2 : ∀ k' ∈ (k :: dictKeys n'), dictHas m k' = false := hfr
    have hk : dictHas m k = false := hfr2 k (List.mem_cons_self _ _)
    have hcons := List.nodup_cons.mp hnd2
    have hfr' : ∀ k' ∈ dictKeys n', dictHas (dictSet m k v) k' = false := by
      intro k' hk'
      have h1 : dictHas m k' = false := hfr2 k' (List.mem_cons_of_mem _ hk')
      have h2 : dictHas [(k, v)] k' = false := by
        simp only [dictHas, List.any_cons, List.any_nil, Bool.or_false]
        exact beq_eq_false_iff_ne.mpr (fun he => hcons.1 (he ▸ hk'))
      rw [dictSet_fresh hk, dictHas_append, h1, h2]
      rfl
    calc dictUpdate m ((k, v) :: n')
        = dictUpdate (dictSet m k v) n' := rfl
      _ = dictSet m k v ++ n' := dictUpdate_fresh n' (dictSet m k v) hcons.2 hfr'
      _ = (m ++ [(k, v)]) ++ n' := by rw [dictSet_fresh hk]
      _ = m ++ ((k, v) :: n') := by simp

/-- The keys of a leaf-column list are the leaf names. -/
theorem dictKeys_leafMap (l : List Concept) :
    dictKeys (l.map (fun c => (c.name, DTYPE_MAP c.ctype))) = l.map Concept.name := by
  simp only [dictKeys, List.map_map]
  rfl

/-- The column dict the walk accumulates over a sibling list, when the
    leaf names of the list are distinct and fresh for the accumulator: the
    accumulator extended by one typed column per leaf, in depth-first
    order. -/
theorem lineItemCols_spec :
    ∀ (l : ConceptList) (acc : Dict PyType),
      ((conceptLeavesList l).map Concept.name).Nodup →
      (∀ k ∈ (conceptLeavesList l).map Concept.name, dictHas acc k = false) →
      lineItemCols l acc =
        acc ++ (conceptLeavesList l).map (fun c => (c.name, DTYPE_MAP c.ctype))
  | .nil, acc, _, _ => by simp [lineItemCols, conceptLeavesList]
  | .cons (.mk n t .nil) rest, acc, hnd, hfr => by
    have hnd2 : (n :: (conceptLeavesList rest).map Concept.name).Nodup := hnd
    have hfr2 : ∀ k ∈ (n :: (conceptLeavesList rest).map Concept.name),
        dictHas acc k = false := hfr
    have hcons := List.nodup_cons.mp hnd2
    have hfn : dictHas acc n = false := hfr2 n (List.mem_cons_self _ _)
    have hfr' : ∀ k ∈ (conceptLeavesList rest).map Concept.name,
        dictHas (dictUpdate acc [(n, DTYPE_MAP t)]) k = false := by
      intro k hk
      have h1 : dictHas acc k = false := hfr2 k (List.mem_cons_of_mem _ hk)
      have h2 : dictHas [(n, DTYPE_MAP t)] k = false := by
        simp only [dictHas, List.any_cons, List.any_nil, Bool.or_false]
        exact beq_eq_false_iff_ne.mpr (fun he => hcons.1 (he ▸ hk))
      rw [show (dictUpdate acc [(n, DTYPE_MAP t)] : Dict PyType) =
        dictSet acc n (DTYPE_MAP t) from rfl, dictSet_fresh hfn, dictHas_append, h1, h2]
      rfl
    calc lineItemCols (ConceptList.cons (Concept.mk n t ConceptList.nil) rest) acc
        = lineItemCols rest (dictUpdate acc [(n, DTYPE_MAP t)]) := rfl
      _ = dictUpdate acc [(n, DTYPE_MAP t)] ++
            (conceptLeavesList rest).map (fun c => (c.name, DTYPE_MAP c.ctype)) :=
          lineItemCols_spec rest _ hcons.2 hfr'
      _ = (acc ++ [(n, DTYPE_MAP t)]) ++
            (conceptLeavesList rest).map (fun c => (c.name, DTYPE_MAP c.ctype)) := by
          rw [show (dictUpdate acc [(n, DTYPE_MAP t)] : Dict PyType) =
            dictSet acc n (DTYPE_MAP t) from rfl, dictSet_fresh hfn]
      _ = acc ++ (conceptLeavesList
            (ConceptList.cons (Concept.mk n t ConceptList.nil) rest)).map
            (fun c => (c.name, DTYPE_MAP c.ctype)) := by
          simp [conceptLeavesList, Concept.name, Concept.ctype]
  | .cons (.mk n t (.cons c cs)) rest, acc, hnd, hfr => by
    have hnd2 : ((conceptLeavesList (ConceptList.cons c cs)).map Concept.name ++
        (conceptLeavesList rest).map Concept.name).Nodup := by
      have : conceptLeavesList (ConceptList.cons (Concept.mk n t (ConceptList.cons c cs)) rest) =
          conceptLeavesList (ConceptList.cons c cs) ++ conceptLeavesList rest := rfl
      rw [this, List.map_append] at hnd
      exact hnd
    have hfr2 : ∀ k ∈ ((conceptLeavesList (ConceptList.cons c cs)).map Concept.name ++
        (conceptLeavesList rest).map Concept.name), dictHas acc k = false := by
      intro k hk
      apply hfr
      have : conceptLeavesList (ConceptList.cons (Concept.mk n t (ConceptList.cons c cs)) rest) =
          conceptLeavesList (ConceptList.cons c cs) ++ conceptLeavesList rest := rfl
      rw [this, List.map_append]
      exact hk
    obtain ⟨hndInner, hndRest, hdisj⟩ := List.nodup_append.mp hnd2
    have hinner : lineItemCols (ConceptList.cons c cs) [] =
        (conceptLeavesList (ConceptList.cons c cs)).map
          (fun c => (c.name, DTYPE_MAP c.ctype)) :=
      lineItemCols_spec (ConceptList.cons c cs) [] hndInner (fun k _ => rfl)
    have hupd : dictUpdate acc (lineItemCols (ConceptList.cons c cs) []) =
        acc ++ (conceptLeavesList (ConceptList.cons c cs)).map
          (fun c => (c.name, DTYPE_MAP c.ctype)) := by
      rw [hinner]
      apply dictUpdate_fresh
      · rw [dictKeys_leafMap]
        exact hndInner
      · intro k hk
        rw [dictKeys_leafMap] at hk
        exact hfr2 k (List.mem_append.mpr (Or.inl hk))
    have hfr' : ∀ k ∈ (conceptLeavesList rest).map Concept.name,
        dictHas (dictUpdate acc (lineItemCols (ConceptList.cons c cs) [])) k = false := by
      intro k hk
      have h1 : dictHas acc k = false := hfr2 k (List.mem_append.mpr (Or.inr hk))
      have h2 : dictHas ((conceptLeavesList (ConceptList.cons c cs)).map
          (fun c => (c.name, DTYPE_MAP c.ctype))) k = false := by
        by_contra hcon
        simp only [Bool.not_eq_false] at hcon
        have hmem : k ∈ (conceptLeavesList (ConceptList.cons c cs)).map Concept.name := by
          have := dictHas_iff_mem_keys.mp hcon
          rwa [dictKeys_leafMap] at this
        exact hdisj hmem hk
      rw [hupd, dictHas_append, h1, h2]
      rfl
    calc lineItemCols (ConceptList.cons (Concept.mk n t (ConceptList.cons c cs)) rest) acc
        = lineItemCols rest (dictUpdate acc (lineItemCols (ConceptList.cons c cs) [])) := rfl
      _ = dictUpdate acc (lineItemCols (ConceptList.cons c cs) []) ++
            (conceptLeavesList rest).map (fun c => (c.name, DTYPE_MAP c.ctype)) :=
          lineItemCols_spec rest _ hndRest hfr'
      _ = acc ++ (conceptLeavesList
            (ConceptList.cons (Concept.mk n t (ConceptList.cons c cs)) rest)).map
            (fun c => (c.name, DTYPE_MAP c.ctype)) := by
          rw [hupd]
          have : conceptLeavesList (ConceptList.cons (Concept.mk n t (ConceptList.cons c cs)) rest) =
              conceptLeavesList (ConceptList.cons c cs) ++ conceptLeavesList rest := rfl
          rw [this, List.map_append, List.append_assoc]

/-- The walk on a whole concept, leaves version. -/
theorem get_cols_from_line_item_spec (c : Concept)
    (h : ((Concept.leaves c).map Concept.name).Nodup) :
    get_cols_from_line_item c =
      (Concept.leaves c).map (fun l => (l.name, DTYPE_MAP l.ctype)) := by
  rcases c with ⟨n, t, _ | ⟨c, cs⟩⟩
  · simp [get_cols_from_line_item, Concept.leaves, Concept.name, Concept.ctype]
  · have : Concept.leaves (Concept.mk n t (ConceptList.cons c cs)) =
        conceptLeavesList (ConceptList.cons c cs) := rfl
    rw [this] at h ⊢
    calc get_cols_from_line_item (Concept.mk n t (ConceptList.cons c cs))
        = lineItemCols (ConceptList.cons c cs) [] := rfl
      _ = [] ++ (conceptLeavesList (ConceptList.cons c cs)).map
            (fun l => (l.name, DTYPE_MAP l.ctype)) :=
          lineItemCols_spec (ConceptList.cons c cs) [] h (fun k _ => rfl)
      _ = (conceptLeavesList (ConceptList.cons c cs)).map
            (fun l => (l.name, DTYPE_MAP l.ctype)) := by simp

/-- C8 (amended): when the leaf names of a LineItems subtree are distinct
    — always the case in a well-formed taxonomy — the depth-first walk
    yields exactly one column per leaf concept in depth-first order and no
    column for a grouping concept (the column list is precisely the leaf
    list), each typed by the closed DTYPE_MAP: monetary, integer, year and
    energy types to int64; decimal, power and per-unit types to float64;
    every other type string.  When leaf names repeat, later leaves
    overwrite earlier ones in the dict (see the counterexample). -/
theorem line_item_walk_leaf_columns (c : Concept)
    (h : ((Concept.leaves c).map Concept.name).Nodup) :
    get_cols_from_line_item c =
      (Concept.leaves c).map (fun l => (l.name, DTYPE_MAP l.ctype)) ∧
    (DTYPE_MAP "Monetary" = .pyint64 ∧ DTYPE_MAP "Integer" = .pyint64 ∧
     DTYPE_MAP "GYear" = .pyint64 ∧ DTYPE_MAP "Energy" = .pyint64) ∧
    (DTYPE_MAP "Decimal" = .pyfloat64 ∧ DTYPE_MAP "Power" = .pyfloat64 ∧
     DTYPE_MAP "PerUnit" = .pyfloat64) ∧
    (∀ t : String,
      t ∉ (["Decimal", "GYear", "Power", "Integer", "Monetary", "PerUnit",
            "Energy"] : List String) → DTYPE_MAP t = .pystr) := by
  refine ⟨get_cols_from_line_item_spec c h, by decide, by decide, ?_⟩
  intro t ht
  have d1 : t ≠ "Decimal" := fun he => ht (by simp [he])
  have d2 : t ≠ "GYear" := fun he => ht (by simp [he])
  have d3 : t ≠ "Power" := fun he => ht (by simp [he])
  have d4 : t ≠ "Integer" := fun he => ht (by simp [he])
  have d5 : t ≠ "Monetary" := fun he => ht (by simp [he])
  have d6 : t ≠ "PerUnit" := fun he => ht (by simp [he])
  have d7 : t ≠ "Energy" := fun he => ht (by simp [he])
  unfold DTYPE_MAP
  by_cases h1 : t = "String"
  · rw [if_pos h1]
  · rw [if_neg h1, if_neg d1, if_neg d2, if_neg d3, if_neg d4, if_neg d5,
      if_neg d6, if_neg d7]
    by_cases h9 : t = "Date"
    · rw [if_pos h9]
    · rw [if_neg h9]
      by_cases h10 : t = "FormType"
      · rw [if_pos h10]
      · rw [if_neg h10]
        by_cases h11 : t = "ReportPeriod"
        · rw [if_pos h11]
        · rw [if_neg h11]

/-- C8 witness: the amended walk instantiated at a subtree with a grouping
    node and two distinctly named leaves. -/
theorem line_item_walk_leaf_columns_witness :
    ((Concept.leaves lineItemsW).map Concept.name).Nodup ∧
    (get_cols_from_line_item lineItemsW =
      (Concept.leaves lineItemsW).map (fun l => (l.name, DTYPE_MAP l.ctype)) ∧
    (DTYPE_MAP "Monetary" = .pyint64 ∧ DTYPE_MAP "Integer" = .pyint64 ∧
     DTYPE_MAP "GYear" = .pyint64 ∧ DTYPE_MAP "Energy" = .pyint64) ∧
    (DTYPE_MAP "Decimal" = .pyfloat64 ∧ DTYPE_MAP "Power" = .pyfloat64 ∧
     DTYPE_MAP "PerUnit" = .pyfloat64) ∧
    (∀ t : String,
      t ∉ (["Decimal", "GYear", "Power", "Integer", "Monetary", "PerUnit",
            "Energy"] : List String) → DTYPE_MAP t = .pystr)) :=
  ⟨by decide, line_item_walk_leaf_columns lineItemsW (by decide)⟩

/- Fold lemmas for the column construction of get_fact_table. -/

theorem mem_keys_foldl_dictSet {α : Type} (l : List String) (v : α) :
    ∀ (m : Dict α) (k : String),
      k ∈ dictKeys (l.foldl (fun d a => dictSet d a v) m) ↔
        k ∈ dictKeys m ∨ k ∈ l := by
  induction l with
  | nil => intro m k; simp
  | cons a l' ih =>
    intro m k
    simp only [List.foldl_cons]
    rw [ih (dictSet m a v) k, mem_keys_dictSet]
    simp only [List.mem_cons]
    tauto

theorem dictGet_foldl_dictSet {α : Type} (l : List String) (v : α) :
    ∀ (m : Dict α) (k : String),
      dictGet (l.foldl (fun d a => dictSet d a v) m) k =
        if k ∈ l then some v else dictGet m k := by
  induction l with
  | nil => intro m k; simp
  | cons a l' ih =>
    intro m k
    simp only [List.foldl_cons]
    rw [ih (dictSet m a v) k]
    by_cases hl : k ∈ l'
    · rw [if_pos hl, if_pos (List.mem_cons_of_mem _ hl)]
    · rw [if_neg hl]
      by_cases ha : k = a
      · rw [ha, if_pos (List.mem_cons_self _ _)]
        exact dictGet_dictSet_self
      · rw [if_neg (by simp [ha, hl]), dictGet_dictSet_ne ha]

theorem mem_keys_dictUpdate {α : Type} (n : Dict α) :
    ∀ (m : Dict α) (k : String),
      k ∈ dictKeys (dictUpdate m n) ↔ k ∈ dictKeys m ∨ k ∈ dictKeys n := by
  induction n with
  | nil => intro m k; simp [dictUpdate, dictKeys]
  | cons p n' ih =>
    intro m k
    rw [show dictUpdate m (p :: n') = dictUpdate (dictSet m p.1 p.2) n' from rfl,
      ih (dictSet m p.1 p.2) k, mem_keys_dictSet]
    rw [show dictKeys (p :: n') = p.1 :: dictKeys n' from rfl]
    simp only [List.mem_cons]
    tauto

theorem dictGet_dictUpdate_not_has {α : Type} (n : Dict α) :
    ∀ (m : Dict α) (k : String), dictHas n k = false →
      dictGet (dictUpdate m n) k = dictGet m k := by
  induction n with
  | nil => intro m k _; rfl
  | cons p n' ih =>
    intro m k h
    simp only [dictHas, List.any_cons, Bool.or_eq_false_iff] at h
    rw [show dictUpdate m (p :: n') = dictUpdate (dictSet m p.1 p.2) n' from rfl,
      ih (dictSet m p.1 p.2) k (by simpa [dictHas] using h.2),
      dictGet_dictSet_ne (by
        intro he
        rw [he] at h
        simp at h)]

/-- The LineItems fold of get_fact_table seen through key membership. -/
theorem mem_keys_lineFold (rc : List Concept) :
    ∀ (d0 : Dict PyType) (k : String),
      k ∈ dictKeys (rc.foldl (fun d c =>
          if strEnds c.name "LineItems" then
            dictUpdate d (get_columns_from_table c) else d) d0) ↔
        k ∈ dictKeys d0 ∨ ∃ c ∈ rc, strEnds c.name "LineItems" = true ∧
          k ∈ dictKeys (get_columns_from_table c) := by
  induction rc with
  | nil => intro d0 k; simp
  | cons c rc' ih =>
    intro d0 k
    simp only [List.foldl_cons]
    by_cases hc : strEnds c.name "LineItems" = true
    · rw [if_pos hc, ih, mem_keys_dictUpdate]
      constructor
      · rintro ((hd | hli) | hrest)
        · exact Or.inl hd
        · exact Or.inr ⟨c, List.mem_cons_self _ _, hc, hli⟩
        · obtain ⟨c', hc', he, hk⟩ := hrest
          exact Or.inr ⟨c', List.mem_cons_of_mem _ hc', he, hk⟩
      · rintro (hd | ⟨c', hc', he, hk⟩)
        · exact Or.inl (Or.inl hd)
        · rcases List.mem_cons.mp hc' with rfl | hc'
          · exact Or.inl (Or.inr hk)
          · exact Or.inr ⟨c', hc', he, hk⟩
    · rw [if_neg hc, ih]
      constructor
      · rintro (hd | ⟨c', hc', he, hk⟩)
        · exact Or.inl hd
        · exact Or.inr ⟨c', List.mem_cons_of_mem _ hc', he, hk⟩
      · rintro (hd | ⟨c', hc', he, hk⟩)
        · exact Or.inl hd
        · rcases List.mem_cons.mp hc' with rfl | hc'
          · exact absurd he hc
          · exact Or.inr ⟨c', hc', he, hk⟩

/-- The LineItems fold leaves a key alone when no LineItems child holds
    that key. -/
theorem dictGet_lineFold_not (rc : List Concept) :
    ∀ (d0 : Dict PyType) (k : String),
      (∀ c ∈ rc, strEnds c.name "LineItems" = true →
        dictHas (get_columns_from_table c) k = false) →
      dictGet (rc.foldl (fun d c =>
          if strEnds c.name "LineItems" then
            dictUpdate d (get_columns_from_table c) else d) d0) k = dictGet d0 k := by
  induction rc with
  | nil => intro d0 k _; rfl
  | cons c rc' ih =>
    intro d0 k h
    simp only [List.foldl_cons]
    by_cases hc : strEnds c.name "LineItems" = true
    · rw [if_pos hc, ih _ _ (fun c' hc' he => h c' (List.mem_cons_of_mem _ hc') he),
        dictGet_dictUpdate_not_has _ _ _ (h c (List.mem_cons_self _ _) hc)]
    · rw [if_neg hc, ih _ _ (fun c' hc' he => h c' (List.mem_cons_of_mem _ hc') he)]

/-- C3 (amended): every derived schema's column map contains entity_id,
    the duration pair start_date and end_date, and an instant column — the
    single-date instant form is never produced by the deriver itself —
    plus one column per axis, string-typed unless a LineItems concept
    reuses the axis name or the axis is named filing_id while filing ids
    are enabled; the instant column keeps its bool dtype unless an axis or
    a LineItems column reuses the name instant; a column named date can
    only come from the LineItems subtree or from an axis named date, never
    from the deriver's own date handling. -/
theorem get_fact_table_base_columns (schedule : LinkRole) (g : Bool)
    (t : TableInfo) (h : get_fact_table schedule g = .ok t) :
    dictHas t.columns "entity_id" = true ∧
    dictHas t.columns "start_date" = true ∧
    dictHas t.columns "end_date" = true ∧
    dictHas t.columns "instant" = true ∧
    (∀ a ∈ t.axes, dictHas t.columns a = true) ∧
    (dictHas t.columns "date" = true → "date" ∈ t.axes ∨ lineItemsHasCol schedule "date") ∧
    (∀ a ∈ t.axes, ¬ lineItemsHasCol schedule a → (g = true → a ≠ "filing_id") →
      dictGet t.columns a = some .pystr) ∧
    ("instant" ∉ t.axes → ¬ lineItemsHasCol schedule "instant" →
      dictGet t.columns "instant" = some .pybool8) := by
  unfold get_fact_table at h
  rcases hr : schedule.concepts.child_concepts.toList with _ | ⟨root, rest⟩ <;>
    simp only [hr, bind, Except.bind] at h
  · cases h
  · simp only [Except.ok.injEq] at h
    subst h
    have hli : ∀ k, lineItemsHasCol schedule k ↔
        ∃ c ∈ root.child_concepts.toList, strEnds c.name "LineItems" = true ∧
          k ∈ dictKeys (get_columns_from_table c) := by
      intro k
      unfold lineItemsHasCol
      rw [hr]
    constructor
    · rw [dictHas_iff_mem_keys, mem_keys_lineFold]
      left
      by_cases hg : g = true
      · rw [if_pos hg, mem_keys_dictSet]
        left
        rw [mem_keys_foldl_dictSet]
        left
        simp [dictKeys]
      · rw [if_neg hg, mem_keys_foldl_dictSet]
        left
        simp [dictKeys]
    constructor
    · rw [dictHas_iff_mem_keys, mem_keys_lineFold]
      left
      by_cases hg : g = true
      · rw [if_pos hg, mem_keys_dictSet]
        left
        rw [mem_keys_foldl_dictSet]
        left
        simp [dictKeys]
      · rw [if_neg hg, mem_keys_foldl_dictSet]
        left
        simp [dictKeys]
    constructor
    · rw [dictHas_iff_mem_keys, mem_keys_lineFold]
      left
      by_cases hg : g = true
      · rw [if_pos hg, mem_keys_dictSet]
        left
        rw [mem_keys_foldl_dictSet]
        left
        simp [dictKeys]
      · rw [if_neg hg, mem_keys_foldl_dictSet]
        left
        simp [dictKeys]
    constructor
    · rw [dictHas_iff_mem_keys, mem_keys_lineFold]
      left
      by_cases hg : g = true
      · rw [if_pos hg, mem_keys_dictSet]
        left
        rw [mem_keys_foldl_dictSet]
        left
        simp [dictKeys]
      · rw [if_neg hg, mem_keys_foldl_dictSet]
        left
        simp [dictKeys]
    constructor
    · intro a ha
      rw [dictHas_iff_mem_keys, mem_keys_lineFold]
      left
      by_cases hg : g = true
      · rw [if_pos hg, mem_keys_dictSet]
        left
        rw [mem_keys_foldl_dictSet]
        right
        exact ha
      · rw [if_neg hg, mem_keys_foldl_dictSet]
        right
        exact ha
    constructor
    · intro hd
      rw [dictHas_iff_mem_keys, mem_keys_lineFold] at hd
      rcases hd with hd | hline
      · left
        by_cases hg : g = true
        · rw [if_pos hg, mem_keys_dictSet] at hd
          rcases hd with hd | hd
          · rw [mem_keys_foldl_dictSet] at hd
            rcases hd with hd | hd
            · simp [dictKeys] at hd
            · exact hd
          · simp at hd
        · rw [if_neg hg, mem_keys_foldl_dictSet] at hd
          rcases hd with hd | hd
          · simp [dictKeys] at hd
          · exact hd
      · right
        rw [hli]
        exact hline
    constructor
    · intro a ha hnl hfi
      have hnone : ∀ c ∈ root.child_concepts.toList,
          strEnds c.name "LineItems" = true →
          dictHas (get_columns_from_table c) a = false := by
        intro c hc he
        by_contra hcon
        simp only [Bool.not_eq_false] at hcon
        exact hnl ((hli a).mpr ⟨c, hc, he, dictHas_iff_mem_keys.mp hcon⟩)
      rw [dictGet_lineFold_not _ _ _ hnone]
      by_cases hg : g = true
      · rw [if_pos hg, dictGet_dictSet_ne (hfi hg), dictGet_foldl_dictSet,
          if_pos ha]
      · rw [if_neg hg, dictGet_foldl_dictSet, if_pos ha]
    · intro hax hnl
      have hnone : ∀ c ∈ root.child_concepts.toList,
          strEnds c.name "LineItems" = true →
          dictHas (get_columns_from_table c) "instant" = false := by
        intro c hc he
        by_contra hcon
        simp only [Bool.not_eq_false] at hcon
        exact hnl ((hli "instant").mpr ⟨c, hc, he, dictHas_iff_mem_keys.mp hcon⟩)
      rw [dictGet_lineFold_not _ _ _ hnone]
      by_cases hg : g = true
      · rw [if_pos hg, dictGet_dictSet_ne (by decide), dictGet_foldl_dictSet,
          if_neg hax]
        decide
      · rw [if_neg hg, dictGet_foldl_dictSet, if_neg hax]
        decide

/-- C3 witness: the amended schema shape instantiated at a role with one
    axis and one Monetary leaf. -/
theorem get_fact_table_base_columns_witness :
    get_fact_table roleAxis false = .ok tiAxis ∧
    (dictHas tiAxis.columns "entity_id" = true ∧
    dictHas tiAxis.columns "start_date" = true ∧
    dictHas tiAxis.columns "end_date" = true ∧
    dictHas tiAxis.columns "instant" = true ∧
    (∀ a ∈ tiAxis.axes, dictHas tiAxis.columns a = true) ∧
    (dictHas tiAxis.columns "date" = true →
      "date" ∈ tiAxis.axes ∨ lineItemsHasCol roleAxis "date") ∧
    (∀ a ∈ tiAxis.axes, ¬ lineItemsHasCol roleAxis a →
      (false = true → a ≠ "filing_id") →
      dictGet tiAxis.columns a = some .pystr) ∧
    ("instant" ∉ tiAxis.axes → ¬ lineItemsHasCol roleAxis "instant" →
      dictGet tiAxis.columns "instant" = some .pybool8)) :=
  ⟨by decide, get_fact_table_base_columns roleAxis false tiAxis (by decide)⟩

/- Cell and list helpers for the row-assembly proof. -/

theorem cellOfOpt_ne_null {v : Option String} (h : v.isSome = true) :
    cellOfOpt v ≠ Cell.null := by
  rcases v with _ | s
  · simp at h
  · simp [cellOfOpt]

theorem getD_set_self {c : List Cell} {i : Nat} {v : Cell} (h : i < c.length) :
    (c.set i v).getD i Cell.null = v := by
  rw [List.getD_eq_getElem?_getD, List.getElem?_set_self h]
  rfl

theorem getD_set_ne {c : List Cell} {i i' : Nat} {v : Cell} (h : i ≠ i') :
    (c.set i v).getD i' Cell.null = c.getD i' Cell.null := by
  rw [List.getD_eq_getElem?_getD, List.getElem?_set_ne h, ← List.getD_eq_getElem?_getD]

theorem getD_replicate_null {n i : Nat} :
    (List.replicate n Cell.null).getD i Cell.null = Cell.null := by
  rw [List.getD_eq_getElem?_getD, List.getElem?_replicate]
  by_cases h : i < n
  · rw [if_pos h]
    rfl
  · rw [if_neg h]
    rfl

theorem mem_eraseIdx_of_fst_ne {β : Type} :
    ∀ (l : List (String × β)) (j : Nat) (p : String × β), p ∈ l →
      (∀ q, l[j]? = some q → q.1 ≠ p.1) → p ∈ l.eraseIdx j
  | [], _, _, hp, _ => absurd hp (List.not_mem_nil _)
  | a :: t, 0, p, hp, hq => by
    rcases List.mem_cons.mp hp with rfl | hp
    · exact absurd rfl (hq p (by simp))
    · simpa [List.eraseIdx] using hp
  | a :: t, j + 1, p, hp, hq => by
    rcases List.mem_cons.mp hp with rfl | hp
    · simp [List.eraseIdx]
    · have := mem_eraseIdx_of_fst_ne t j p hp (fun q hqj => hq q (by simpa using hqj))
      simp only [List.eraseIdx]
      exact List.mem_cons_of_mem _ this

theorem zip_eraseIdx {α β : Type} :
    ∀ (l1 : List α) (l2 : List β) (j : Nat), l1.length = l2.length →
      (l1.eraseIdx j).zip (l2.eraseIdx j) = (l1.zip l2).eraseIdx j
  | [], l2, j, _ => by simp [List.eraseIdx]
  | a :: t1, [], j, h => by simp at h
  | _ :: t1, _ :: t2, 0, _ => rfl
  | a :: t1, b :: t2, j + 1, h => by
    simp only [List.eraseIdx, List.zip_cons_cons]
    rw [zip_eraseIdx t1 t2 j (by simpa using h)]
    rfl

/-- Key membership for a fold of dictSet with key and value functions. -/
theorem mem_keys_foldl_dictSetG {α β : Type} (kf : β → String) (vf : β → α) :
    ∀ (l : List β) (m : Dict α) (k : String),
      k ∈ dictKeys (l.foldl (fun d x => dictSet d (kf x) (vf x)) m) ↔
        k ∈ dictKeys m ∨ k ∈ l.map kf := by
  intro l
  induction l with
  | nil => intro m k; simp
  | cons x l' ih =>
    intro m k
    simp only [List.foldl_cons]
    rw [ih (dictSet m (kf x) (vf x)) k, mem_keys_dictSet]
    simp only [List.map_cons, List.mem_cons]
    tauto

/-- Entries of a fold of dictSet trace back to the start dict or to an
    inserted pair. -/
theorem mem_foldl_dictSetG {α β : Type} (kf : β → String) (vf : β → α) :
    ∀ (l : List β) (m : Dict α) (p : String × α),
      p ∈ l.foldl (fun d x => dictSet d (kf x) (vf x)) m →
        p ∈ m ∨ ∃ x ∈ l, p = (kf x, vf x) := by
  intro l
  induction l with
  | nil => intro m p hp; exact Or.inl hp
  | cons x l' ih =>
    intro m p hp
    rcases ih (dictSet m (kf x) (vf x)) p hp with hm | ⟨y, hy, rfl⟩
    · rcases mem_dictSet hm with rfl | hm
      · exact Or.inr ⟨x, List.mem_cons_self _ _, rfl⟩
      · exact Or.inl hm
    · exact Or.inr ⟨y, List.mem_cons_of_mem _ hy, rfl⟩

theorem dictKeys_nodup_dictSet {α : Type} {m : Dict α} {k : String} {v : α}
    (h : (dictKeys m).Nodup) : (dictKeys (dictSet m k v)).Nodup := by
  rw [dictKeys_dictSet]
  by_cases hh : dictHas m k = true
  · rw [if_pos hh]
    exact h
  · rw [if_neg hh]
    have hk : k ∉ dictKeys m := fun hm => hh (dictHas_iff_mem_keys.mpr hm)
    simp [List.nodup_append, h, hk]

theorem dictKeys_nodup_foldl {α β : Type} (kf : β → String) (vf : β → α) :
    ∀ (l : List β) (m : Dict α), (dictKeys m).Nodup →
      (dictKeys (l.foldl (fun d x => dictSet d (kf x) (vf x)) m)).Nodup := by
  intro l
  induction l with
  | nil => intro m h; exact h
  | cons x l' ih =>
    intro m h
    exact ih (dictSet m (kf x) (vf x)) (dictKeys_nodup_dictSet h)

theorem dictKeys_nodup_dictUpdate {α : Type} {m n : Dict α}
    (h : (dictKeys m).Nodup) : (dictKeys (dictUpdate m n)).Nodup :=
  dictKeys_nodup_foldl Prod.fst Prod.snd n m h

/-- Every entry of buildRow is the name and value cell of a fact of the
    list whose name is a schema column. -/
theorem buildRow_mem {fl : List Fact} {cols : Dict PyType} {p : String × Cell}
    (hp : p ∈ buildRow fl cols) :
    ∃ f ∈ fl, p = (f.name, cellOfOpt f.value) ∧ dictHas cols f.name = true := by
  unfold buildRow at hp
  rcases mem_foldl_dictSetG (fun f : Fact => f.name) (fun f => cellOfOpt f.value)
      (fl.filter (fun f => dictHas cols f.name)) [] p hp with hm | ⟨f, hf, rfl⟩
  · simp at hm
  · have := List.mem_filter.mp hf
    exact ⟨f, this.1, rfl, this.2⟩

theorem buildRow_keys_nodup {fl : List Fact} {cols : Dict PyType} :
    (dictKeys (buildRow fl cols)).Nodup :=
  dictKeys_nodup_foldl (fun f : Fact => f.name) (fun f => cellOfOpt f.value)
    (fl.filter (fun f => dictHas cols f.name)) [] (by simp [dictKeys])

/-- Key membership for the axis-value fold of get_context_ids. -/
theorem mem_keys_axesDict (dims : List Axis) :
    ∀ (m : Dict Cell) (k : String),
      k ∈ dictKeys (dims.foldl (fun d a => dictSet d a.name (Cell.str a.value)) m) ↔
        k ∈ dictKeys m ∨ k ∈ dims.map Axis.name := by
  induction dims with
  | nil => intro m k; simp
  | cons a l' ih =>
    intro m k
    simp only [List.foldl_cons]
    rw [ih (dictSet m a.name (Cell.str a.value)) k, mem_keys_dictSet]
    simp only [List.map_cons, List.mem_cons]
    tauto

/-- The keys of get_context_ids: the fixed identifying keys and the names
    of the entity's dimensions. -/
theorem mem_keys_get_context_ids {c : Context} {fid : Option Int} {k : String}
    (h : k ∈ dictKeys (c.get_context_ids fid)) :
    k ∈ (["context_id", "entity_id", "filing_name", "date", "start_date",
          "end_date"] : List String) ∨
      k ∈ c.entity.dimensions.map Axis.name := by
  unfold Context.get_context_ids at h
  rcases (mem_keys_dictUpdate _ _ _).mp h with h1 | h1
  · rcases (mem_keys_dictUpdate _ _ _).mp h1 with h2 | h2
    · left
      simp only [dictKeys, List.map_cons, List.map_nil, List.mem_cons,
        List.not_mem_nil, or_false] at h2
      rcases h2 with rfl | rfl | rfl <;> simp
    · left
      by_cases hi : c.period.instant = true
      · rw [if_pos hi] at h2
        simp only [dictKeys, List.map_cons, List.map_nil, List.mem_cons,
          List.not_mem_nil, or_false] at h2
        rw [h2]
        simp
      · rw [if_neg hi] at h2
        simp only [dictKeys, List.map_cons, List.map_nil, List.mem_cons,
          List.not_mem_nil, or_false] at h2
        rcases h2 with rfl | rfl <;> simp
  · right
    rcases (mem_keys_axesDict c.entity.dimensions [] k).mp h1 with h2 | h2
    · simp [dictKeys] at h2
    · exact h2

/-- A retained context's dimension names all occur in the axis list. -/
theorem in_axes_dims_sub {c : Context} {axes : List String}
    (h : c.in_axes axes = true) :
    ∀ d ∈ c.entity.dimensions, d.name ∈ axes := by
  intro d hd
  unfold Context.in_axes Context.check_dimensions Entity.check_dimensions at h
  by_cases hlen : (c.entity.dimensions.length != axes.length) = true
  · rw [if_pos hlen] at h
    cases h
  · rw [if_neg hlen] at h
    have := List.all_eq_true.mp h d hd
    simpa using this

/-- Data columns avoid the identifying keys and the axis names. -/
theorem dataCols_spec {ti : TableInfo} {k : String} (h : k ∈ dataCols ti) :
    k ∈ dictKeys ti.columns ∧ idCols.contains k = false ∧
      ti.axes.contains k = false := by
  unfold dataCols at h
  have := List.mem_filter.mp h
  refine ⟨this.1, ?_, ?_⟩
  · rcases hb : idCols.contains k
    · rfl
    · exfalso
      have := this.2
      rw [hb] at this
      simp at this
  · rcases hb : ti.axes.contains k
    · rfl
    · exfalso
      have := this.2
      rw [hb] at this
      simp at this

/- writeRow lemmas. -/

theorem writeRow_keys :
    ∀ (r : Dict Cell) (d d' : Dict (List Cell)) (i : Nat),
      writeRow d i r = .ok d' → dictKeys d' = dictKeys d
  | [], d, d', i, h => by
    simp only [writeRow, List.foldlM_nil] at h
    cases h
    rfl
  | p :: r', d, d', i, h => by
    simp only [writeRow, List.foldlM_cons] at h
    rcases hg : dictGet d p.1 with _ | col <;> rw [hg] at h
    · simp [bind, Except.bind] at h
    · simp only [bind, Except.bind] at h
      have := writeRow_keys r' (dictSet d p.1 (col.set i p.2)) d' i h
      rw [this, dictKeys_dictSet_of_has (dictGet_some_has hg)]

theorem writeRow_lens :
    ∀ (r : Dict Cell) (d d' : Dict (List Cell)) (i L : Nat),
      writeRow d i r = .ok d' → (∀ p ∈ d, p.2.length = L) →
      ∀ p ∈ d', p.2.length = L
  | [], d, d', i, L, h, hl => by
    simp only [writeRow, List.foldlM_nil] at h
    cases h
    exact hl
  | p :: r', d, d', i, L, h, hl => by
    simp only [writeRow, List.foldlM_cons] at h
    rcases hg : dictGet d p.1 with _ | col <;> rw [hg] at h
    · simp [bind, Except.bind] at h
    · simp only [bind, Except.bind] at h
      refine writeRow_lens r' (dictSet d p.1 (col.set i p.2)) d' i L h ?_
      intro q hq
      rcases mem_dictSet hq with rfl | hq
      · simp only [List.length_set]
        exact hl (p.1, col) (dictGet_mem hg)
      · exact hl q hq

theorem writeRow_get_not_mem :
    ∀ (r : Dict Cell) (d d' : Dict (List Cell)) (i : Nat) (k : String),
      writeRow d i r = .ok d' → k ∉ dictKeys r → dictGet d' k = dictGet d k
  | [], d, d', i, k, h, _ => by
    simp only [writeRow, List.foldlM_nil] at h
    cases h
    rfl
  | p :: r', d, d', i, k, h, hk => by
    have hk2 : ¬ (k = p.1 ∨ k ∈ dictKeys r') := by
      intro hor
      apply hk
      rw [show dictKeys (p :: r') = p.1 :: dictKeys r' from rfl]
      rcases hor with rfl | hm
      · exact List.mem_cons_self _ _
      · exact List.mem_cons_of_mem _ hm
    simp only [writeRow, List.foldlM_cons] at h
    rcases hg : dictGet d p.1 with _ | col <;> rw [hg] at h
    · simp [bind, Except.bind] at h
    · simp only [bind, Except.bind] at h
      rw [writeRow_get_not_mem r' (dictSet d p.1 (col.set i p.2)) d' i k h
        (fun hm => hk2 (Or.inr hm))]
      exact dictGet_dictSet_ne (fun he => hk2 (Or.inl he))

/-- A pair of a dict either survives a dictSet untouched, or it was the
    first entry with that key — then dictGet returned its value and it is
    replaced by the new pair. -/
theorem mem_dictSet_kv {α : Type} :
    ∀ (m : Dict α) (k key : String) (c v : α), (k, c) ∈ m →
      (k, c) ∈ dictSet m key v ∨
        (k = key ∧ dictGet m key = some c ∧ (key, v) ∈ dictSet m key v)
  | [], _, _, _, _, hm => absurd hm (List.not_mem_nil _)
  | p :: rest, k, key, c, v, hm => by
    cases hc : (p.1 == key) with
    | true =>
      have hk : p.1 = key := beq_iff_eq.mp hc
      rw [dictSet, if_pos hc]
      rcases List.mem_cons.mp hm with he | hm
      · right
        have hp2 : p.2 = c := (congrArg Prod.snd he).symm
        refine ⟨(congrArg Prod.fst he).trans hk, ?_, List.mem_cons_self _ _⟩
        rw [dictGet_cons_pos hc, hp2]
      · exact Or.inl (List.mem_cons_of_mem _ hm)
    | false =>
      rw [dictSet, if_neg (by simp [hc])]
      rcases List.mem_cons.mp hm with he | hm
      · exact Or.inl (he ▸ List.mem_cons_self _ _)
      · rcases mem_dictSet_kv rest k key c v hm with h | ⟨hkey, hget, hmem⟩
        · exact Or.inl (List.mem_cons_of_mem _ h)
        · right
          refine ⟨hkey, ?_, List.mem_cons_of_mem _ hmem⟩
          rw [dictGet_cons_neg hc]
          exact hget

theorem writeRow_mem_fwd :
    ∀ (r : Dict Cell) (d d' : Dict (List Cell)) (i : Nat),
      writeRow d i r = .ok d' →
      ∀ (k : String) (c : List Cell), (k, c) ∈ d →
      ∃ c', (k, c') ∈ d' ∧ c'.length = c.length ∧
        ∀ i', i' ≠ i → c'.getD i' Cell.null = c.getD i' Cell.null
  | [], d, d', i, h, k, c, hm => by
    simp only [writeRow, List.foldlM_nil] at h
    cases h
    exact ⟨c, hm, rfl, fun _ _ => rfl⟩
  | p :: r', d, d', i, h, k, c, hm => by
    simp only [writeRow, List.foldlM_cons] at h
    rcases hg : dictGet d p.1 with _ | col <;> rw [hg] at h
    · simp [bind, Except.bind] at h
    · simp only [bind, Except.bind] at h
      rcases mem_dictSet_kv d k p.1 c (col.set i p.2) hm with hkeep | ⟨hkey, hgc, hnew⟩
      · exact writeRow_mem_fwd r' _ d' i h k c hkeep
      · subst hkey
        rw [hg] at hgc
        have hcol : col = c := Option.some.inj hgc
        subst hcol
        obtain ⟨c', hc', hlen, hagree⟩ :=
          writeRow_mem_fwd r' _ d' i h p.1 (col.set i p.2) hnew
        refine ⟨c', hc', by rw [hlen, List.length_set], ?_⟩
        intro i' hi'
        rw [hagree i' hi', getD_set_ne (fun he => hi' he.symm)]

theorem writeRow_mem_rev :
    ∀ (r : Dict Cell) (d d' : Dict (List Cell)) (i : Nat),
      writeRow d i r = .ok d' →
      ∀ (k : String) (c' : List Cell), (k, c') ∈ d' →
      ∃ c, (k, c) ∈ d ∧
        ∀ i', i' ≠ i → c'.getD i' Cell.null = c.getD i' Cell.null
  | [], d, d', i, h, k, c', hm => by
    simp only [writeRow, List.foldlM_nil] at h
    cases h
    exact ⟨c', hm, fun _ _ => rfl⟩
  | p :: r', d, d', i, h, k, c', hm => by
    simp only [writeRow, List.foldlM_cons] at h
    rcases hg : dictGet d p.1 with _ | col <;> rw [hg] at h
    · simp [bind, Except.bind] at h
    · simp only [bind, Except.bind] at h
      obtain ⟨c₁, hc₁, hagree₁⟩ := writeRow_mem_rev r' _ d' i h k c' hm
      rcases mem_dictSet hc₁ with he | hold
      · have hk : k = p.1 := congrArg Prod.fst he
        have hcv : c₁ = col.set i p.2 := congrArg Prod.snd he
        refine ⟨col, by rw [hk]; exact dictGet_mem hg, ?_⟩
        intro i' hi'
        rw [hagree₁ i' hi', hcv, getD_set_ne (fun hee => hi' hee.symm)]
      · exact ⟨c₁, hold, hagree₁⟩

theorem writeRow_writes :
    ∀ (r : Dict Cell) (d d' : Dict (List Cell)) (i L : Nat),
      writeRow d i r = .ok d' → (dictKeys r).Nodup →
      (∀ p ∈ d, p.2.length = L) → i < L →
      ∀ (k : String) (v : Cell), (k, v) ∈ r →
      ∃ col', dictGet d' k = some col' ∧ col'.getD i Cell.null = v
  | [], _, _, _, _, _, _, _, _, _, _, hm => absurd hm (List.not_mem_nil _)
  | p :: r', d, d', i, L, h, hnd, hl, hi, k, v, hm => by
    have hnd2 : (p.1 :: dictKeys r').Nodup := hnd
    have hcons := List.nodup_cons.mp hnd2
    simp only [writeRow, List.foldlM_cons] at h
    rcases hg : dictGet d p.1 with _ | col <;> rw [hg] at h
    · simp [bind, Except.bind] at h
    · simp only [bind, Except.bind] at h
      have hl1 : ∀ q ∈ dictSet d p.1 (col.set i p.2), q.2.length = L := by
        intro q hq
        rcases mem_dictSet hq with rfl | hq
        · simp only [List.length_set]
          exact hl (p.1, col) (dictGet_mem hg)
        · exact hl q hq
      rcases List.mem_cons.mp hm with he | hm
      · have hk : k = p.1 := congrArg Prod.fst he
        have hv : v = p.2 := congrArg Prod.snd he
        subst hk
        subst hv
        rw [writeRow_get_not_mem r' _ d' i p.1 h hcons.1, dictGet_dictSet_self]
        refine ⟨col.set i p.2, rfl, ?_⟩
        exact getD_set_self (by rw [hl (p.1, col) (dictGet_mem hg)]; exact hi)
      · exact writeRow_writes r' _ d' i L h hcons.2 hl1 hi k v hm

theorem contains_true_iff_mem {l : List String} {a : String} :
    l.contains a = true ↔ a ∈ l := by
  induction l with
  | nil => simp
  | cons x xs ih =>
    simp only [List.contains_cons, Bool.or_eq_true, beq_iff_eq, List.mem_cons]
    rw [ih]

/-- One cdStep preserves the cell-writing invariant. -/
theorem cdStep_inv {facts : Dict (List Fact)} {ti : TableInfo} {fid : Option Int}
    {d d' : Dict (List Cell)} {ip : Nat × (String × Context)} {L : Nat}
    (h : cdStep facts ti.columns fid d ip = .ok d')
    (hwf : ∀ p ∈ facts, ∀ f ∈ p.2, f.value.isSome = true)
    (hdata : ∀ p ∈ facts, ∀ f ∈ p.2, dictHas ti.columns f.name = true →
      f.name ∈ dataCols ti)
    (hax : ip.2.2.in_axes ti.axes = true)
    (hi : ip.1 < L)
    (hinv : CInv ti L d) : CInv ti L d' := by
  unfold cdStep at h
  rcases hg : dictGet facts ip.2.1 with _ | fl <;> rw [hg] at h <;>
    simp only [bind, Except.bind] at h
  · cases h
  · by_cases hrow : (buildRow fl ti.columns).isEmpty = true
    · rw [if_pos hrow] at h
      cases h
      exact hinv
    · rw [if_neg hrow] at h
      rcases hbr : buildRow fl ti.columns with _ | ⟨p₀, rest⟩
      · rw [hbr] at hrow
        simp at hrow
      · have hp₀ : p₀ ∈ buildRow fl ti.columns := by
          rw [hbr]
          exact List.mem_cons_self _ _
        obtain ⟨f, hf, hpe, hhas⟩ := buildRow_mem hp₀
        have hval : f.value.isSome = true := hwf (ip.2.1, fl) (dictGet_mem hg) f hf
        have hdat : f.name ∈ dataCols ti := hdata (ip.2.1, fl) (dictGet_mem hg) f hf hhas
        have hcellnn : cellOfOpt f.value ≠ Cell.null := cellOfOpt_ne_null hval
        obtain ⟨_, hid, haxc⟩ := dataCols_spec hdat
        have hidfree : dictHas (ip.2.2.get_context_ids fid) f.name = false := by
          rcases hb : dictHas (ip.2.2.get_context_ids fid) f.name with _ | _
          · rfl
          · exfalso
            rcases mem_keys_get_context_ids (dictHas_iff_mem_keys.mp hb) with hsix | hdims
            · have : f.name ∈ idCols := by
                simp only [List.mem_cons, List.not_mem_nil, or_false] at hsix
                rcases hsix with h | h | h | h | h | h <;> rw [h] <;> decide
              rw [← contains_true_iff_mem] at this
              rw [this] at hid
              cases hid
            · obtain ⟨dim, hdim, hdn⟩ := List.mem_map.mp hdims
              have : f.name ∈ ti.axes := hdn ▸ in_axes_dims_sub hax dim hdim
              rw [← contains_true_iff_mem] at this
              rw [this] at haxc
              cases haxc
        have hget_row2 : dictGet (dictUpdate (buildRow fl ti.columns)
            (ip.2.2.get_context_ids fid)) f.name = some (cellOfOpt f.value) := by
          rw [dictGet_dictUpdate_not_has _ _ _ hidfree, hbr, hpe]
          exact dictGet_cons_pos (beq_self_eq_true _)
        have hmem_row2 : (f.name, cellOfOpt f.value) ∈
            dictUpdate (buildRow fl ti.columns) (ip.2.2.get_context_ids fid) :=
          dictGet_mem hget_row2
        have hnd : (dictKeys (dictUpdate (buildRow fl ti.columns)
            (ip.2.2.get_context_ids fid))).Nodup :=
          dictKeys_nodup_dictUpdate buildRow_keys_nodup
        refine ⟨?_, ?_, ?_⟩
        · rw [writeRow_keys _ _ _ _ h]
          exact hinv.1
        · exact writeRow_lens _ _ _ _ _ h hinv.2.1
        · intro i'
          by_cases hii : i' = ip.1
          · right
            subst hii
            obtain ⟨col', hgcol, hcell⟩ := writeRow_writes _ _ _ _ _ h hnd hinv.2.1
              hi f.name (cellOfOpt f.value) hmem_row2
            exact ⟨f.name, col', hdat, dictGet_mem hgcol, by rw [hcell]; exact hcellnn⟩
          · rcases hinv.2.2 i' with hAll | ⟨k, col, hk, hmemd, hnn⟩
            · left
              intro p' hp'
              obtain ⟨c, hcd, hagree⟩ := writeRow_mem_rev _ _ _ _ h p'.1 p'.2
                (by rw [Prod.mk.eta]; exact hp')
              rw [hagree i' hii]
              exact hAll (p'.1, c) hcd
            · right
              obtain ⟨col', hmem', _, hagree'⟩ := writeRow_mem_fwd _ _ _ _ h k col hmemd
              exact ⟨k, col', hk, hmem', by rw [hagree' i' hii]; exact hnn⟩

/-- The whole context loop preserves the cell-writing invariant. -/
theorem foldlM_cdStep_inv {facts : Dict (List Fact)} {ti : TableInfo}
    {fid : Option Int} {L : Nat}
    (hwf : ∀ p ∈ facts, ∀ f ∈ p.2, f.value.isSome = true)
    (hdata : ∀ p ∈ facts, ∀ f ∈ p.2, dictHas ti.columns f.name = true →
      f.name ∈ dataCols ti) :
    ∀ (pairs : List (Nat × (String × Context))) (d d' : Dict (List Cell)),
      pairs.foldlM (cdStep facts ti.columns fid) d = .ok d' →
      (∀ ip ∈ pairs, ip.1 < L ∧ ip.2.2.in_axes ti.axes = true) →
      CInv ti L d → CInv ti L d'
  | [], d, d', h, _, hinv => by
    simp only [List.foldlM_nil] at h
    cases h
    exact hinv
  | ip :: rest, d, d', h, hb, hinv => by
    simp only [List.foldlM_cons] at h
    rcases hpc : cdStep facts ti.columns fid d ip with e | d₁ <;>
      simp only [hpc, bind, Except.bind] at h
    · cases h
    · have hip := hb ip (List.mem_cons_self _ _)
      exact foldlM_cdStep_inv hwf hdata rest d₁ d' h
        (fun q hq => hb q (List.mem_cons_of_mem _ hq))
        (cdStep_inv hpc hwf hdata hip.2 hip.1 hinv)

theorem dictKeys_df0 (cols : Dict PyType) (L : Nat) :
    dictKeys (cols.map fun p => (p.1, List.replicate L Cell.null)) = dictKeys cols := by
  simp only [dictKeys, List.map_map]
  rfl

theorem CInv_df0 (ti : TableInfo) (L : Nat) :
    CInv ti L (ti.columns.map fun p => (p.1, List.replicate L Cell.null)) := by
  refine ⟨dictKeys_df0 _ _, ?_, ?_⟩
  · intro p hp
    obtain ⟨q, _, rfl⟩ := List.mem_map.mp hp
    simp
  · intro i'
    left
    intro p hp
    obtain ⟨q, _, rfl⟩ := List.mem_map.mp hp
    exact getD_replicate_null

/-- C7 (amended): for every parsed instance and every table whose
    column-matching facts are all named by data columns — a fact named
    after an identifying column is the only way to defeat this, see the
    counterexample — every row construct_dataframe emits carries a
    non-null value in at least one data column.  Rows never written stay
    all-null and dropna removes them; a written row owes its existence to
    a matching fact, whose parse-guaranteed value lands in a data column
    no identifying key can overwrite. -/
theorem construct_dataframe_rows_have_data (doc : XDoc) (contexts : Dict Context)
    (facts : Dict (List Fact)) (url : String) (ti : TableInfo) (fid : Option Int)
    (fr : Frame)
    (hp : parse doc = .ok (contexts, facts, url))
    (hdata : ∀ p ∈ facts, ∀ f ∈ p.2, dictHas ti.columns f.name = true →
      f.name ∈ dataCols ti)
    (hok : construct_dataframe contexts facts ti fid = .ok fr) :
    ∀ row ∈ fr.rows,
      (fr.cols.zip row).any
        (fun p => (dataCols ti).contains p.1 && !(p.2 == Cell.null)) = true := by
  have hwf : ∀ p ∈ facts, ∀ f ∈ p.2, f.value.isSome = true :=
    fun p hp' f hf => ((parse_ok_inv hp).2 p hp' f hf).2
  unfold construct_dataframe at hok
  simp only [bind, Except.bind] at hok
  split at hok
  · cases hok
  next df hfold =>
    split at hok
    all_goals rename_i hfind
    case _ j =>
      rw [Except.ok.injEq] at hok
      subst hok
      have hbounds : ∀ ip ∈ (contexts.filter fun p => p.2.in_axes ti.axes).enum,
          ip.1 < (contexts.filter fun p => p.2.in_axes ti.axes).length ∧
          ip.2.2.in_axes ti.axes = true := by
        intro ip hip
        have hge := List.mem_enum_iff_getElem?.mp hip
        constructor
        · by_contra hlt
          rw [List.getElem?_eq_none (Nat.le_of_not_lt hlt)] at hge
          cases hge
        · exact (List.mem_filter.mp (List.getElem?_mem hge)).2
      have hinv := foldlM_cdStep_inv hwf hdata _ _ _ hfold hbounds
        (CInv_df0 ti (contexts.filter fun p => p.2.in_axes ti.axes).length)
      intro row hrow
      obtain ⟨r0, hr0kept, rfl⟩ := List.mem_map.mp hrow
      obtain ⟨hr0all, hany⟩ := List.mem_filter.mp hr0kept
      obtain ⟨i, _, rfl⟩ := List.mem_map.mp hr0all
      obtain ⟨x, hx, hxnn⟩ := List.any_eq_true.mp hany
      obtain ⟨px, hpx, rfl⟩ := List.mem_map.mp hx
      have hpxnn : px.2.getD i Cell.null ≠ Cell.null := by
        simpa using hxnn
      rcases hinv.2.2 i with hAll | ⟨k, col, hk, hmemdf, hnn⟩
      · exact absurd (hAll px hpx) hpxnn
      · rw [zip_eraseIdx (dictKeys df) (df.map fun p => p.2.getD i Cell.null) j
          (by simp [dictKeys])]
        rw [show (dictKeys df).zip (df.map fun p => p.2.getD i Cell.null) =
          df.map (fun p => (p.1, p.2.getD i Cell.null)) from
          List.zip_map' Prod.fst
            (fun p : String × List Cell => p.2.getD i Cell.null) df]
        apply List.any_eq_true.mpr
        refine ⟨(k, col.getD i Cell.null), ?_, ?_⟩
        · apply mem_eraseIdx_of_fst_ne
          · exact List.mem_map.mpr ⟨(k, col), hmemdf, rfl⟩
          · intro q hq
            have hfi := List.findIdx?_of_eq_some hfind
            rw [List.getElem?_map] at hq
            rcases hdfj : df[j]? with _ | q0 <;> rw [hdfj] at hq
            · cases hq
            · simp only [Option.map_some'] at hq
              have hkeysj : (dictKeys df)[j]? = some q0.1 := by
                rw [show dictKeys df = df.map Prod.fst from rfl, List.getElem?_map, hdfj]
                rfl
              rw [hkeysj] at hfi
              have hq01 : q0.1 = "context_id" := beq_iff_eq.mp hfi
              have hq1 : q.1 = "context_id" := by
                have hq2 : (q0.1, q0.2.getD i Cell.null) = q := Option.some.inj hq
                rw [← hq2]
                exact hq01
              obtain ⟨-, hid, -⟩ := dataCols_spec hk
              intro he
              rw [hq1] at he
              have hek : k = "context_id" := he.symm
              have : k ∈ idCols := by
                rw [hek]
                decide
              rw [← contains_true_iff_mem] at this
              rw [this] at hid
              cases hid
        · simp only
          rw [show (dataCols ti).contains k = true from contains_true_iff_mem.mpr hk,
            show (col.getD i Cell.null == Cell.null) = false from
              beq_eq_false_iff_ne.mpr hnn]
          rfl
    case _ => cases hok

/-- C7 witness: the amended row property instantiated at docGood against
    the filing_name-bearing table ti7 — the emitted row carries the Assets
    fact value in its data column. -/
theorem construct_dataframe_rows_have_data_witness :
    parse docGood = .ok (ctxsGood, factsGood, "taxurl") ∧
    (∀ p ∈ factsGood, ∀ f ∈ p.2, dictHas ti7.columns f.name = true →
      f.name ∈ dataCols ti7) ∧
    construct_dataframe ctxsGood factsGood ti7 none = .ok frameW ∧
    ∀ row ∈ frameW.rows,
      (frameW.cols.zip row).any
        (fun p => (dataCols ti7).contains p.1 && !(p.2 == Cell.null)) = true :=
  ⟨by decide, by decide, by decide,
   construct_dataframe_rows_have_data docGood ctxsGood factsGood "taxurl" ti7 none
     frameW (by decide) (by decide) (by decide)⟩

end Xbrl
